import Mathlib

/-!
Verification of the core in-memory indexing and history subsystem of the
task-tracker repository: the ordered task index (singly linked list with
tail pointer), the priority search tree, the bounded history stack, the
undo/redo coordinator, and the durable-store interplay used by undo.

Each definition is a shallow embedding of the corresponding Python
function; theorems check the specification's claims against it.
-/

set_option maxHeartbeats 1000000

namespace TaskMgr

/-- Task record, as the dictionaries moved between the components
(`id`, `title`, `description`, `priority`, `status`, `due_date`);
`priority` is an unchecked integer, `due_date` a date string compared
lexically. -/
structure Task where
  id : Int
  title : String
  description : String
  priority : Int
  status : String
  due_date : String
  deriving DecidableEq, Repr

/-! ## Ordered index: sequence-level semantics of the ordered inserts

`TaskLinkedList.insert_task_by_priority` / `insert_task_by_due_date`
walk the list from the head counting the nodes the new record must go
after, then splice it in with `insert_at_position`.  On the flat
sequence of records held by the list this is: count the initial
segment passing the walk's condition, insert at that position. -/

/-- `TaskLinkedList.insert_task_by_priority`: empty list gets the record
at the head; a record of strictly higher priority than the head goes at
the head; otherwise the walk counts the nodes with `priority >=` the new
record's priority and the record is spliced at that position. -/
def insert_task_by_priority (l : List Task) (t : Task) : List Task :=
  match l with
  | [] => [t]
  | h :: _ =>
    if t.priority > h.priority then t :: l
    else
      let pos := (l.takeWhile (fun r => decide (t.priority ≤ r.priority))).length
      l.take pos ++ t :: l.drop pos

/-- `TaskLinkedList.insert_task_by_due_date`: symmetric, ascending by the
lexically compared `due_date` string, walking past the nodes whose
`due_date <=` the new record's. -/
def insert_task_by_due_date (l : List Task) (t : Task) : List Task :=
  match l with
  | [] => [t]
  | h :: _ =>
    if t.due_date < h.due_date then t :: l
    else
      let pos := (l.takeWhile (fun r => decide (r.due_date ≤ t.due_date))).length
      l.take pos ++ t :: l.drop pos

/-- Index built by inserting a sequence of records in priority mode. -/
def build_by_priority (ts : List Task) : List Task :=
  ts.foldl insert_task_by_priority []

/-- Index built by inserting a sequence of records in due-date mode. -/
def build_by_due_date (ts : List Task) : List Task :=
  ts.foldl insert_task_by_due_date []

/-- Sorted in descending order of priority. -/
def sortedByPriorityDesc (l : List Task) : Prop :=
  List.Pairwise (fun a b => b.priority ≤ a.priority) l

/-- Sorted in ascending lexical order of due date. -/
def sortedByDueDateAsc (l : List Task) : Prop :=
  List.Pairwise (fun a b => a.due_date ≤ b.due_date) l

theorem take_len_takeWhile {α : Type} (l : List α) (P : α → Bool) :
    l.take (l.takeWhile P).length = l.takeWhile P :=
  ( List.prefix_iff_eq_take.mp ( List.takeWhile_prefix P)).symm

theorem drop_len_takeWhile {α : Type} (l : List α) (P : α → Bool) :
    l.drop (l.takeWhile P).length = l.dropWhile P := by
  nth_rewrite 2 [← List.takeWhile_append_dropWhile (p := P) (l := l)]
  exact List.drop_left _ _

/-- The priority insert always splices the new record exactly after the
initial segment of records with `priority ≥` its own. -/
theorem insert_task_by_priority_eq (l : List Task) (t : Task) :
    insert_task_by_priority l t
      = l.takeWhile (fun r => decide (t.priority ≤ r.priority))
          ++ t :: l.dropWhile (fun r => decide (t.priority ≤ r.priority)) := by
  match l with
  | [] => rfl
  | h :: tl =>
    rw [insert_task_by_priority]
    by_cases hgt : t.priority > h.priority
    · rw [if_pos hgt, List.takeWhile_cons, List.dropWhile_cons]
      have : ¬ t.priority ≤ h.priority := not_le.mpr hgt
      simp [this]
    · rw [if_neg hgt]
      simp only [take_len_takeWhile, drop_len_takeWhile]

/-- The due-date insert always splices the new record exactly after the
initial segment of records with `due_date ≤` its own. -/
theorem insert_task_by_due_date_eq (l : List Task) (t : Task) :
    insert_task_by_due_date l t
      = l.takeWhile (fun r => decide (r.due_date ≤ t.due_date))
          ++ t :: l.dropWhile (fun r => decide (r.due_date ≤ t.due_date)) := by
  match l with
  | [] => rfl
  | h :: tl =>
    rw [insert_task_by_due_date]
    by_cases hlt : t.due_date < h.due_date
    · rw [if_pos hlt, List.takeWhile_cons, List.dropWhile_cons]
      have : ¬ h.due_date ≤ t.due_date := not_le.mpr hlt
      simp [this]
    · rw [if_neg hlt]
      simp only [take_len_takeWhile, drop_len_takeWhile]

/-- In a descending-sorted list, everything the priority walk skips to
(the `dropWhile` part) has strictly smaller priority than the new record. -/
theorem dropWhile_priority_lt (l : List Task) (t : Task)
    (hl : sortedByPriorityDesc l) :
    ∀ x ∈ l.dropWhile (fun r => decide (t.priority ≤ r.priority)),
      x.priority < t.priority := by
  induction l with
  | nil => simp
  | cons a l ih =>
    intro x hx
    rw [List.dropWhile_cons] at hx
    by_cases ha : t.priority ≤ a.priority
    · simp only [decide_eq_true_eq, if_pos ha] at hx
      exact ih (List.Pairwise.of_cons hl) x hx
    · simp only [decide_eq_true_eq, if_neg ha] at hx
      rcases List.mem_cons.mp hx with rfl | hx
      · exact not_le.mp ha
      · exact lt_of_le_of_lt ((List.pairwise_cons.mp hl).1 x hx) (not_le.mp ha)

/-- In an ascending-sorted list, everything the due-date walk skips to
has strictly later due date than the new record. -/
theorem dropWhile_due_date_gt (l : List Task) (t : Task)
    (hl : sortedByDueDateAsc l) :
    ∀ x ∈ l.dropWhile (fun r => decide (r.due_date ≤ t.due_date)),
      t.due_date < x.due_date := by
  induction l with
  | nil => simp
  | cons a l ih =>
    intro x hx
    rw [List.dropWhile_cons] at hx
    by_cases ha : a.due_date ≤ t.due_date
    · simp only [decide_eq_true_eq, if_pos ha] at hx
      exact ih (List.Pairwise.of_cons hl) x hx
    · simp only [decide_eq_true_eq, if_neg ha] at hx
      rcases List.mem_cons.mp hx with rfl | hx
      · exact not_le.mp ha
      · exact lt_of_lt_of_le (not_le.mp ha) ((List.pairwise_cons.mp hl).1 x hx)

/-- The priority insert preserves descending-by-priority sortedness. -/
theorem insert_task_by_priority_sorted (l : List Task) (t : Task)
    (hl : sortedByPriorityDesc l) :
    sortedByPriorityDesc (insert_task_by_priority l t) := by
  rw [insert_task_by_priority_eq]
  rw [sortedByPriorityDesc, List.pairwise_append]
  refine ⟨hl.sublist ( List.takeWhile_prefix _).sublist, ?_, ?_⟩
  · rw [List.pairwise_cons]
    refine ⟨fun x hx => le_of_lt (dropWhile_priority_lt l t hl x hx), ?_⟩
    exact hl.sublist ( List.dropWhile_suffix _).sublist
  · intro a ha b hb
    have haP : t.priority ≤ a.priority := by
      simpa using List.mem_takeWhile_imp ha
    rcases List.mem_cons.mp hb with rfl | hb
    · exact haP
    · exact le_trans (le_of_lt (dropWhile_priority_lt l t hl b hb)) haP

/-- The due-date insert preserves ascending-by-due-date sortedness. -/
theorem insert_task_by_due_date_sorted (l : List Task) (t : Task)
    (hl : sortedByDueDateAsc l) :
    sortedByDueDateAsc (insert_task_by_due_date l t) := by
  rw [insert_task_by_due_date_eq]
  rw [sortedByDueDateAsc, List.pairwise_append]
  refine ⟨hl.sublist ( List.takeWhile_prefix _).sublist, ?_, ?_⟩
  · rw [List.pairwise_cons]
    refine ⟨fun x hx => le_of_lt (dropWhile_due_date_gt l t hl x hx), ?_⟩
    exact hl.sublist ( List.dropWhile_suffix _).sublist
  · intro a ha b hb
    have haP : a.due_date ≤ t.due_date := by
      simpa using List.mem_takeWhile_imp ha
    rcases List.mem_cons.mp hb with rfl | hb
    · exact haP
    · exact le_trans haP (le_of_lt (dropWhile_due_date_gt l t hl b hb))

theorem build_by_priority_sorted (ts : List Task) :
    sortedByPriorityDesc (build_by_priority ts) := by
  rw [build_by_priority]
  have h : ∀ (ts : List Task) (l : List Task), sortedByPriorityDesc l →
      sortedByPriorityDesc (ts.foldl insert_task_by_priority l) := by
    intro ts
    induction ts with
    | nil => intro l hl; exact hl
    | cons t ts ih =>
      intro l hl
      exact ih _ (insert_task_by_priority_sorted l t hl)
  exact h ts [] List.Pairwise.nil

theorem build_by_due_date_sorted (ts : List Task) :
    sortedByDueDateAsc (build_by_due_date ts) := by
  rw [build_by_due_date]
  have h : ∀ (ts : List Task) (l : List Task), sortedByDueDateAsc l →
      sortedByDueDateAsc (ts.foldl insert_task_by_due_date l) := by
    intro ts
    induction ts with
    | nil => intro l hl; exact hl
    | cons t ts ih =>
      intro l hl
      exact ih _ (insert_task_by_due_date_sorted l t hl)
  exact h ts [] List.Pairwise.nil

/-- C1: for every sequence of records inserted via the priority-mode
ordered insert, the flat sequence is sorted in descending order of
priority; and a newly inserted record lands exactly after the initial
segment of records with priority `≥` its own — in particular after all
already-present records of equal priority, since every record past that
segment has strictly smaller priority (ties are not LIFO-stable). -/
theorem C1_priority_insert_sorted_ties_after (ts : List Task) (t : Task) :
    sortedByPriorityDesc (build_by_priority ts) ∧
    insert_task_by_priority (build_by_priority ts) t
      = (build_by_priority ts).takeWhile (fun r => decide (t.priority ≤ r.priority))
          ++ t :: (build_by_priority ts).dropWhile
              (fun r => decide (t.priority ≤ r.priority)) ∧
    ∀ x ∈ (build_by_priority ts).dropWhile
        (fun r => decide (t.priority ≤ r.priority)),
      x.priority < t.priority :=
  ⟨build_by_priority_sorted ts,
   insert_task_by_priority_eq _ t,
   dropWhile_priority_lt _ t (build_by_priority_sorted ts)⟩

/-- The three records of the spec's due-date scenario. -/
def taskDec31 : Task := ⟨1, "a", "", 1, "todo", "2024-12-31"⟩

def taskDec15 : Task := ⟨2, "b", "", 1, "todo", "2024-12-15"⟩

def taskDec01 : Task := ⟨3, "c", "", 1, "todo", "2024-12-01"⟩

theorem dec15_lt_dec31 : ("2024-12-15" : String) < "2024-12-31" := by
  rw [String.lt_iff_toList_lt]; decide

theorem dec01_lt_dec15 : ("2024-12-01" : String) < "2024-12-15" := by
  rw [String.lt_iff_toList_lt]; decide

theorem due_date_scenario :
    build_by_due_date [taskDec31, taskDec15, taskDec01]
      = [taskDec01, taskDec15, taskDec31] := by
  show insert_task_by_due_date
      (insert_task_by_due_date (insert_task_by_due_date [] taskDec31) taskDec15)
      taskDec01 = _
  have h1 : insert_task_by_due_date [] taskDec31 = [taskDec31] := rfl
  have c2 : taskDec15.due_date < taskDec31.due_date := dec15_lt_dec31
  have c3 : taskDec01.due_date < taskDec15.due_date := dec01_lt_dec15
  rw [h1, insert_task_by_due_date, if_pos c2,
    insert_task_by_due_date, if_pos c3]

/-- C6: for every sequence of records inserted via the due-date-mode
ordered insert, the flat sequence is sorted in ascending lexical order
of the `due_date` string; and the spec's scenario — due dates
2024-12-31, 2024-12-15, 2024-12-01 inserted in that order — reads back
in ascending order. -/
theorem C6_due_date_insert_sorted_scenario (ts : List Task) :
    sortedByDueDateAsc (build_by_due_date ts) ∧
    (build_by_due_date [taskDec31, taskDec15, taskDec01]).map
        (fun r => r.due_date)
      = ["2024-12-01", "2024-12-15", "2024-12-31"] :=
  ⟨build_by_due_date_sorted ts, by rw [due_date_scenario]; rfl⟩

/-! ## Bounded history stack (`Stack.py`, class `Stack`)

The backing Python list `_items` holds the items bottom first; capacity
is `_max_size`.  The bookkeeping counter `_operation_count` has no
behavioural effect and is not modelled.  `push` on a stack that is at
capacity first evicts the oldest item with `_items.pop(0)`; on an empty
backing list (possible only when the capacity is `0`) that raises
`IndexError`, modelled as `none`. -/
structure Stack (α : Type) where
  items : List α
  max_size : Nat
  deriving DecidableEq, Repr

namespace Stack

/-- `Stack.push`: evict the bottom item when at capacity, then append;
returns `True`.  `none` models the `IndexError` of `pop(0)` on an empty
backing list. -/
def push (s : Stack α) (x : α) : Option (Stack α × Bool) :=
  if s.max_size ≤ s.items.length then
    match s.items with
    | [] => none
    | _ :: rest => some (⟨rest ++ [x], s.max_size⟩, true)
  else some (⟨s.items ++ [x], s.max_size⟩, true)

/-- `Stack.pop`: return and remove the newest item (the end of the
backing list), or `None` leaving the stack unchanged when empty. -/
def pop (s : Stack α) : Option α × Stack α :=
  (s.items.getLast?, ⟨s.items.dropLast, s.max_size⟩)

/-- `Stack.peek`. -/
def peek (s : Stack α) : Option α := s.items.getLast?

/-- `Stack.is_empty`. -/
def is_empty (s : Stack α) : Bool := s.items.isEmpty

/-- `Stack.size`. -/
def size (s : Stack α) : Nat := s.items.length

/-- `Stack.clear`. -/
def clear (s : Stack α) : Stack α := ⟨[], s.max_size⟩

/-- Under a positive capacity, `push` always succeeds and its result is
the old items (with the bottom evicted when at capacity) plus the new
item at the top. -/
theorem push_spec (s : Stack α) (x : α) (h : 0 < s.max_size) :
    s.push x
      = some (⟨(if s.max_size ≤ s.items.length then s.items.tail
                else s.items) ++ [x], s.max_size⟩, true) := by
  obtain ⟨items, k⟩ := s
  simp only [push] at *
  by_cases hc : k ≤ items.length
  · cases items with
    | nil => simp at hc; omega
    | cons y rest =>
      simp only [List.length_cons] at hc ⊢
      simp [hc]
  · simp [hc]

end Stack

/-- Sequence of pushes (each `push` may fail, so the fold is monadic). -/
def pushAll (s : Stack α) (xs : List α) : Option (Stack α) :=
  xs.foldlM (fun s x => (s.push x).map (fun p => p.1)) s

/-- Pushing `a` then `b` and popping twice: the probe of the LIFO claim. -/
def lifo_probe (s : Stack α) (a b : α) : Option (Option α × Option α) :=
  (s.push a).bind fun p1 =>
    (p1.1.push b).map fun p2 =>
      let q1 := p2.1.pop
      let q2 := q1.2.pop
      (q1.1, q2.1)

theorem lifo_probe_spec (s : Stack α) (a b : α) (h : 2 ≤ s.max_size) :
    lifo_probe s a b = some (some b, some a) := by
  obtain ⟨items, k⟩ := s
  simp only [Stack.max_size] at h
  have h1 : 0 < (Stack.mk items k).max_size := by
    simp only [Stack.max_size]; omega
  rw [lifo_probe, Stack.push_spec _ a h1, Option.some_bind]
  dsimp only
  generalize (if k ≤ items.length then items.tail else items) = E1
  have h1' : 0 < (Stack.mk (E1 ++ [a]) k).max_size := by
    simp only [Stack.max_size]; omega
  rw [Stack.push_spec _ b h1']
  dsimp only
  obtain ⟨E2, hE2⟩ : ∃ E2, (if k ≤ (E1 ++ [a]).length then (E1 ++ [a]).tail
      else E1 ++ [a]) = E2 ++ [a] := by
    by_cases hc : k ≤ (E1 ++ [a]).length
    · cases E1 with
      | nil => simp at hc; omega
      | cons y rest => refine ⟨rest, ?_⟩; rw [if_pos hc]; rfl
    · exact ⟨E1, by rw [if_neg hc]⟩
  rw [hE2]
  simp [Stack.pop, List.getLast?_concat, List.dropLast_concat]

/-- `pushAll` from any stack within capacity keeps exactly the most
recent `max_size` elements of old-items-then-pushes. -/
theorem pushAll_spec (xs : List α) (items : List α) (k : Nat) (hk : 0 < k)
    (hlen : items.length ≤ k) :
    pushAll ⟨items, k⟩ xs
      = some ⟨(items ++ xs).drop (items.length + xs.length - k), k⟩ := by
  induction xs generalizing items with
  | nil =>
    have h0 : items.length + List.length ([] : List α) - k = 0 := by
      simp; omega
    rw [h0]
    simp [pushAll]
  | cons x xs ih =>
    have hk' : 0 < (Stack.mk items k).max_size := hk
    rw [pushAll, List.foldlM_cons, Stack.push_spec _ x hk']
    dsimp only
    simp only [Option.map_some', Option.some_bind, Option.bind_eq_bind]
    by_cases hc : k ≤ items.length
    · have hceq : items.length = k := le_antisymm hlen hc
      rw [if_pos hc]
      cases items with
      | nil => simp at hceq; omega
      | cons y rest =>
        simp only [List.length_cons] at hceq
        rw [List.tail_cons]
        have hres := ih (rest ++ [x]) (by simp; omega)
        rw [pushAll] at hres
        rw [hres]
        have e1 : (rest ++ [x]).length + xs.length - k = xs.length := by
          simp; omega
        have e2 : (y :: rest).length + (x :: xs).length - k
            = xs.length + 1 := by
          simp only [List.length_cons]; omega
        rw [e1, e2, List.append_assoc, List.singleton_append,
          List.cons_append, List.drop_succ_cons]
    · rw [if_neg hc]
      have hres := ih (items ++ [x]) (by simp; omega)
      rw [pushAll] at hres
      rw [hres]
      have e1 : (items ++ [x]).length + xs.length - k
          = items.length + (x :: xs).length - k := by
        simp only [List.length_append, List.length_cons, List.length_nil,
          List.length_singleton]
        omega
      rw [e1, List.append_assoc, List.singleton_append]

/-! ## Undo/redo coordinator (`Stack.py`, class `UndoRedoManager`) -/

/-- `UndoRedoManager`: two bounded stacks sharing the configured
capacity `max_history`. -/
structure UndoRedoManager (α : Type) where
  undo_stack : Stack α
  redo_stack : Stack α
  max_history : Nat
  deriving DecidableEq, Repr

namespace UndoRedoManager

/-- `UndoRedoManager.__init__(max_history)`. -/
def mk_manager (α : Type) (max_history : Nat) : UndoRedoManager α :=
  ⟨⟨[], max_history⟩, ⟨[], max_history⟩, max_history⟩

/-- `execute_action`: push the action onto the undo stack, then clear
the redo stack. -/
def execute_action (m : UndoRedoManager α) (a : α) :
    Option (UndoRedoManager α) :=
  (m.undo_stack.push a).map fun p => ⟨p.1, m.redo_stack.clear, m.max_history⟩

/-- `undo`: `None` (no state change) when the undo stack is empty —
the code's `is_empty` guard is equivalent to `pop` yielding no value —
else pop the undo stack, push the action onto the redo stack, return it. -/
def undo (m : UndoRedoManager α) : Option (Option α × UndoRedoManager α) :=
  match m.undo_stack.pop with
  | (none, _) => some (none, m)
  | (some a, u) =>
    (m.redo_stack.push a).map fun p => (some a, ⟨u, p.1, m.max_history⟩)

/-- `redo`: symmetric to `undo`. -/
def redo (m : UndoRedoManager α) : Option (Option α × UndoRedoManager α) :=
  match m.redo_stack.pop with
  | (none, _) => some (none, m)
  | (some a, r) =>
    (m.undo_stack.push a).map fun p => (some a, ⟨p.1, r, m.max_history⟩)

/-- `can_undo`. -/
def can_undo (m : UndoRedoManager α) : Bool := !m.undo_stack.is_empty

/-- `can_redo`. -/
def can_redo (m : UndoRedoManager α) : Bool := !m.redo_stack.is_empty

end UndoRedoManager

/-- The sequence `executeAction(A); undo(); redo()`, returning the value
of the final `redo()` call and the final coordinator state. -/
def undo_redo_round_trip (m : UndoRedoManager α) (a : α) :
    Option (Option α × UndoRedoManager α) :=
  (UndoRedoManager.execute_action m a).bind fun m1 =>
    (UndoRedoManager.undo m1).bind fun p => UndoRedoManager.redo p.2

/-- The sequence `executeAction(A); undo(); executeAction(B)`. -/
def branch_cut (m : UndoRedoManager α) (a b : α) :
    Option (UndoRedoManager α) :=
  (UndoRedoManager.execute_action m a).bind fun m1 =>
    (UndoRedoManager.undo m1).bind fun p =>
      UndoRedoManager.execute_action p.2 b

theorem pop_concat (l : List α) (x : α) (k : Nat) :
    (Stack.mk (l ++ [x]) k).pop = (some x, ⟨l, k⟩) := by
  simp [Stack.pop, List.getLast?_concat, List.dropLast_concat]

theorem isEmpty_concat (l : List α) (x : α) : (l ++ [x]).isEmpty = false := by
  cases l <;> rfl

/-- C3 (amended: the coordinator's two stacks have positive capacity,
true of every coordinator constructed with `max_history ≥ 1`):
`executeAction(A); undo(); redo()` returns `A` from the `redo()` call
and leaves `canUndo() == true` and `canRedo() == false`. -/
theorem C3_undo_redo_round_trip (m : UndoRedoManager α) (a : α)
    (h1 : 0 < m.undo_stack.max_size) (h2 : 0 < m.redo_stack.max_size) :
    (undo_redo_round_trip m a).map
        (fun p => (p.1, UndoRedoManager.can_undo p.2,
          UndoRedoManager.can_redo p.2))
      = some (some a, true, false) := by
  obtain ⟨⟨u, k⟩, ⟨r, K⟩, M⟩ := m
  dsimp only at h1 h2
  rw [undo_redo_round_trip, UndoRedoManager.execute_action]
  dsimp only
  rw [Stack.push_spec _ a h1]
  dsimp only [Stack.clear]
  rw [Option.map_some', Option.some_bind]
  generalize (if k ≤ u.length then u.tail else u) = E
  rw [UndoRedoManager.undo]
  dsimp only
  rw [pop_concat]
  dsimp only
  rw [Stack.push_spec _ a h2]
  simp only [List.tail_nil, ite_self, List.nil_append]
  rw [Option.map_some', Option.some_bind]
  rw [UndoRedoManager.redo]
  dsimp only
  rw [show (Stack.mk [a] K).pop = (some a, ⟨[], K⟩) from by
    simp [Stack.pop]]
  dsimp only
  rw [Stack.push_spec _ a h1]
  simp [UndoRedoManager.can_undo, UndoRedoManager.can_redo, Stack.is_empty,
    isEmpty_concat]

/-- C3 as literally stated fails at a coordinator whose configured
capacity is 0: `executeAction` crashes (`pop(0)` from the empty backing
list of a full capacity-0 stack raises `IndexError`), so the round trip
never returns the action. -/
theorem C3_counterexample_zero_capacity :
    ¬ ((undo_redo_round_trip
          (⟨⟨[], 0⟩, ⟨[], 0⟩, 0⟩ : UndoRedoManager Nat) 0).map
        (fun p => (p.1, UndoRedoManager.can_undo p.2,
          UndoRedoManager.can_redo p.2))
      = some (some 0, true, false)) := by decide

theorem C3_undo_redo_round_trip_witness :
    (undo_redo_round_trip
        (⟨⟨[], 50⟩, ⟨[], 50⟩, 50⟩ : UndoRedoManager Nat) 7).map
        (fun p => (p.1, UndoRedoManager.can_undo p.2,
          UndoRedoManager.can_redo p.2))
      = some (some 7, true, false) :=
  C3_undo_redo_round_trip ⟨⟨[], 50⟩, ⟨[], 50⟩, 50⟩ 7 (by decide) (by decide)

/-- C4 (amended: positive capacity): immediately after any
`executeAction` call the redo stack is empty, and in particular
`executeAction(A); undo(); executeAction(B)` leaves
`canRedo() == false`. -/
theorem C4_branch_cut_clears_redo (m : UndoRedoManager α) (a b : α)
    (h1 : 0 < m.undo_stack.max_size) (h2 : 0 < m.redo_stack.max_size) :
    (UndoRedoManager.execute_action m b).map UndoRedoManager.can_redo
      = some false ∧
    (branch_cut m a b).map UndoRedoManager.can_redo = some false := by
  obtain ⟨⟨u, k⟩, ⟨r, K⟩, M⟩ := m
  dsimp only at h1 h2
  constructor
  · rw [UndoRedoManager.execute_action]
    dsimp only
    rw [Stack.push_spec _ b h1]
    simp [UndoRedoManager.can_redo, Stack.clear, Stack.is_empty]
  · rw [branch_cut, UndoRedoManager.execute_action]
    dsimp only
    rw [Stack.push_spec _ a h1]
    dsimp only [Stack.clear]
    rw [Option.map_some', Option.some_bind]
    generalize (if k ≤ u.length then u.tail else u) = E
    rw [UndoRedoManager.undo]
    dsimp only
    rw [pop_concat]
    dsimp only
    rw [Stack.push_spec _ a h2]
    simp only [List.tail_nil, ite_self, List.nil_append]
    rw [Option.map_some', Option.some_bind]
    rw [UndoRedoManager.execute_action]
    dsimp only
    rw [Stack.push_spec _ b h1]
    simp [UndoRedoManager.can_redo, Stack.clear, Stack.is_empty]

/-- C4 as literally stated fails at a coordinator of configured
capacity 0: the pipeline crashes inside `executeAction`, so it never
reaches a state at all. -/
theorem C4_counterexample_zero_capacity :
    ¬ ((branch_cut (⟨⟨[], 0⟩, ⟨[], 0⟩, 0⟩ : UndoRedoManager Nat) 0 1).map
        UndoRedoManager.can_redo = some false) := by decide

theorem C4_branch_cut_clears_redo_witness :
    ((UndoRedoManager.execute_action
        (⟨⟨[], 50⟩, ⟨[], 50⟩, 50⟩ : UndoRedoManager Nat) 1).map
        UndoRedoManager.can_redo = some false) ∧
    ((branch_cut (⟨⟨[], 50⟩, ⟨[], 50⟩, 50⟩ : UndoRedoManager Nat) 0 1).map
        UndoRedoManager.can_redo = some false) :=
  C4_branch_cut_clears_redo ⟨⟨[], 50⟩, ⟨[], 50⟩, 50⟩ 0 1
    (by decide) (by decide)

/-- C5 as literally stated fails at capacity `k = 1`: pushing `a` then
`b` evicts `a`, so the second `pop()` returns nothing rather than `a`. -/
theorem C5_counterexample_capacity_one :
    ¬ (lifo_probe (⟨[], 1⟩ : Stack Nat) 0 1 = some (some 1, some 0)) := by
  decide

/-- C5 (amended: capacity `k ≥ 2`, which the two-push LIFO probe
forces): `push(a); push(b)` then two `pop()`s return `b` then `a` from
any stack state, and pushing a sequence of more than `k` items into an
empty capacity-`k` stack leaves exactly the `k` most recently pushed
items (the oldest having been evicted first). -/
theorem C5_lifo_and_eviction (s : Stack α) (a b : α) (xs : List α)
    (h2 : 2 ≤ s.max_size) (hxs : s.max_size < xs.length) :
    lifo_probe s a b = some (some b, some a) ∧
    pushAll ⟨[], s.max_size⟩ xs
      = some ⟨xs.drop (xs.length - s.max_size), s.max_size⟩ ∧
    (xs.drop (xs.length - s.max_size)).length = s.max_size := by
  refine ⟨lifo_probe_spec s a b h2, ?_, ?_⟩
  · have h := pushAll_spec xs [] s.max_size (by omega) (by simp)
    simpa using h
  · rw [List.length_drop]
    omega

theorem C5_lifo_and_eviction_witness :
    lifo_probe (⟨[], 2⟩ : Stack Nat) 0 1 = some (some 1, some 0) ∧
    pushAll (⟨[], 2⟩ : Stack Nat) [5, 6, 7] = some ⟨[6, 7], 2⟩ ∧
    ([5, 6, 7].drop ([5, 6, 7].length - 2)).length = 2 :=
  C5_lifo_and_eviction ⟨[], 2⟩ 0 1 [5, 6, 7] (by decide) (by decide)

/-- C10 as literally stated fails at capacity 0: the very first `push`
on a fresh capacity-0 stack crashes (`pop(0)` from the empty backing
list) instead of returning `True`. -/
theorem C10_counterexample_zero_capacity :
    ¬ (((⟨[], 0⟩ : Stack Nat).push 7).map (fun p => (p.2, p.1.size))
        = some (true, min ((⟨[], 0⟩ : Stack Nat).size + 1) 0)) := by decide

/-- C10 (amended: positive capacity, stack within capacity — true of
every reachable stack): `push` always returns `True`, never signalling
rejection, and the new size is the old size plus one capped at the
configured maximum. -/
theorem C10_push_returns_true_size_capped (s : Stack α) (x : α)
    (h : 0 < s.max_size) (hlen : s.items.length ≤ s.max_size) :
    (s.push x).map (fun p => (p.2, p.1.size))
      = some (true, min (s.size + 1) s.max_size) := by
  have hn : ((if s.max_size ≤ s.items.length then s.items.tail else s.items)
      ++ [x]).length = min (s.items.length + 1) s.max_size := by
    by_cases hc : s.max_size ≤ s.items.length
    · rw [if_pos hc]
      simp only [List.length_append, List.length_tail, List.length_cons,
        List.length_nil]
      omega
    · rw [if_neg hc]
      simp only [List.length_append, List.length_cons, List.length_nil]
      omega
  rw [Stack.push_spec s x h]
  simp only [Option.map_some', Stack.size]
  rw [hn]

theorem C10_push_returns_true_size_capped_witness :
    ((⟨[5], 1⟩ : Stack Nat).push 9).map (fun p => (p.2, p.1.size))
      = some (true, min ((⟨[5], 1⟩ : Stack Nat).size + 1) 1) :=
  C10_push_returns_true_size_capped ⟨[5], 1⟩ 9 (by decide) (by decide)

/-! ## Priority search tree (`bst.py`, class `BST`)

`TaskNode` holds one record and two children; `_insert` sends records
of strictly smaller priority left and all others (equal included)
right, never rebalancing. -/

/-- The node/`None` shape of the Python tree. -/
inductive Tree where
  | leaf : Tree
  | node (l : Tree) (t : Task) (r : Tree) : Tree
  deriving DecidableEq, Repr

namespace BST

/-- `BST.insert`'s recursive `_insert`. -/
def insert : Tree → Task → Tree
  | Tree.leaf, t => Tree.node Tree.leaf t Tree.leaf
  | Tree.node l v r, t =>
    if t.priority < v.priority then Tree.node (insert l t) v r
    else Tree.node l v (insert r t)

/-- `BST.inorder_traversal`. -/
def inorder_traversal : Tree → List Task
  | Tree.leaf => []
  | Tree.node l v r => inorder_traversal l ++ v :: inorder_traversal r

/-- `BST.search`'s recursive `_search`: an equal priority at the node
is returned at once, else the descent goes left or right; `None` when
the tree runs out. -/
def search : Tree → Int → Option Task
  | Tree.leaf, _ => none
  | Tree.node l v r, p =>
    if v.priority = p then some v
    else if p < v.priority then search l p
    else search r p

/-- Tree built by inserting a sequence of records into a fresh `BST`. -/
def build (ts : List Task) : Tree :=
  ts.foldl insert Tree.leaf

/-- The search-tree invariant `insert` maintains: strictly smaller
priorities in the left subtree, greater-or-equal in the right. -/
inductive Inv : Tree → Prop
  | leaf : Inv Tree.leaf
  | node {l : Tree} {v : Task} {r : Tree} :
      (∀ x ∈ inorder_traversal l, x.priority < v.priority) →
      (∀ x ∈ inorder_traversal r, v.priority ≤ x.priority) →
      Inv l → Inv r → Inv (Tree.node l v r)

theorem mem_inorder_insert (tr : Tree) (t x : Task) :
    x ∈ inorder_traversal (insert tr t)
      ↔ x = t ∨ x ∈ inorder_traversal tr := by
  induction tr with
  | leaf => simp [insert, inorder_traversal]
  | node l v r ihl ihr =>
    rw [insert]
    by_cases h : t.priority < v.priority
    · rw [if_pos h]
      simp only [inorder_traversal, List.mem_append, List.mem_cons, ihl]
      tauto
    · rw [if_neg h]
      simp only [inorder_traversal, List.mem_append, List.mem_cons, ihr]
      tauto

theorem Inv_insert (tr : Tree) (t : Task) (h : Inv tr) :
    Inv (insert tr t) := by
  induction tr with
  | leaf =>
    rw [insert]
    refine Inv.node ?_ ?_ Inv.leaf Inv.leaf <;> simp [inorder_traversal]
  | node l v r ihl ihr =>
    cases h with
    | node hl hr il ir =>
      rw [insert]
      by_cases hp : t.priority < v.priority
      · rw [if_pos hp]
        refine Inv.node ?_ hr (ihl il) ir
        intro x hx
        rcases (mem_inorder_insert l t x).mp hx with rfl | hx
        · exact hp
        · exact hl x hx
      · rw [if_neg hp]
        refine Inv.node hl ?_ il (ihr ir)
        intro x hx
        rcases (mem_inorder_insert r t x).mp hx with rfl | hx
        · exact not_lt.mp hp
        · exact hr x hx

theorem search_sound (tr : Tree) (p : Int) (r : Task)
    (h : search tr p = some r) :
    r ∈ inorder_traversal tr ∧ r.priority = p := by
  induction tr with
  | leaf => simp [search] at h
  | node l v rt ihl ihr =>
    rw [search] at h
    by_cases hv : v.priority = p
    · rw [if_pos hv] at h
      cases h
      exact ⟨by simp [inorder_traversal], hv⟩
    · rw [if_neg hv] at h
      by_cases hp : p < v.priority
      · rw [if_pos hp] at h
        obtain ⟨hm, he⟩ := ihl h
        exact ⟨by simp [inorder_traversal, hm], he⟩
      · rw [if_neg hp] at h
        obtain ⟨hm, he⟩ := ihr h
        exact ⟨by simp [inorder_traversal, hm], he⟩

theorem search_complete (tr : Tree) (p : Int) (h : Inv tr)
    (hnone : search tr p = none) :
    ∀ x ∈ inorder_traversal tr, x.priority ≠ p := by
  induction tr with
  | leaf => simp [inorder_traversal]
  | node l v rt ihl ihr =>
    cases h with
    | node hl hr il ir =>
      rw [search] at hnone
      by_cases hv : v.priority = p
      · rw [if_pos hv] at hnone
        exact absurd hnone (by simp)
      · rw [if_neg hv] at hnone
        intro x hx
        simp only [inorder_traversal, List.mem_append, List.mem_cons] at hx
        by_cases hp : p < v.priority
        · rw [if_pos hp] at hnone
          rcases hx with hx | rfl | hx
          · exact ihl il hnone x hx
          · exact hv
          · intro he
            have := hr x hx
            omega
        · rw [if_neg hp] at hnone
          rcases hx with hx | rfl | hx
          · intro he
            have h1 := hl x hx
            have h2 := not_lt.mp hp
            omega
          · exact hv
          · exact ihr ir hnone x hx

theorem mem_inorder_build (ts : List Task) (x : Task) :
    x ∈ inorder_traversal (build ts) ↔ x ∈ ts := by
  rw [build]
  have h : ∀ (ts : List Task) (tr : Tree),
      x ∈ inorder_traversal (ts.foldl insert tr)
        ↔ x ∈ inorder_traversal tr ∨ x ∈ ts := by
    intro ts
    induction ts with
    | nil => simp
    | cons t ts ih =>
      intro tr
      rw [List.foldl_cons, ih, mem_inorder_insert]
      simp only [List.mem_cons]
      tauto
  rw [h]
  simp [inorder_traversal]

theorem Inv_build (ts : List Task) : Inv (build ts) := by
  rw [build]
  have h : ∀ (ts : List Task) (tr : Tree), Inv tr →
      Inv (ts.foldl insert tr) := by
    intro ts
    induction ts with
    | nil => intro tr htr; exact htr
    | cons t ts ih => intro tr htr; exact ih _ (Inv_insert tr t htr)
  exact h ts _ Inv.leaf

theorem Inv_pairwise (tr : Tree) (h : Inv tr) :
    List.Pairwise (fun a b : Task => a.priority ≤ b.priority)
      (inorder_traversal tr) := by
  induction tr with
  | leaf => simp [inorder_traversal]
  | node l v r ihl ihr =>
    cases h with
    | node hl hr il ir =>
      rw [inorder_traversal, List.pairwise_append]
      refine ⟨ihl il, ?_, ?_⟩
      · rw [List.pairwise_cons]
        exact ⟨fun x hx => hr x hx, ihr ir⟩
      · intro a ha b hb
        rcases List.mem_cons.mp hb with rfl | hb
        · exact le_of_lt (hl a ha)
        · exact le_trans (le_of_lt (hl a ha)) (hr b hb)

end BST

/-- C2: for every sequence of records inserted into the priority search
tree and every integer `p`, `search(p)` returns a record whose priority
is `p` iff some inserted record has priority `p`, and returns the
`None` sentinel otherwise. -/
theorem C2_search_finds_iff_inserted (ts : List Task) (p : Int) :
    ((∃ r, BST.search (BST.build ts) p = some r ∧ r.priority = p)
      ↔ ∃ t ∈ ts, t.priority = p) ∧
    ((¬ ∃ t ∈ ts, t.priority = p) → BST.search (BST.build ts) p = none) := by
  constructor
  · constructor
    · rintro ⟨r, hs, hp⟩
      obtain ⟨hm, _⟩ := BST.search_sound _ p r hs
      exact ⟨r, (BST.mem_inorder_build ts r).mp hm, hp⟩
    · rintro ⟨t, ht, hp⟩
      cases hs : BST.search (BST.build ts) p with
      | none =>
        have := BST.search_complete _ p (BST.Inv_build ts) hs t
          ((BST.mem_inorder_build ts t).mpr ht)
        exact absurd hp this
      | some r =>
        obtain ⟨_, he⟩ := BST.search_sound _ p r hs
        exact ⟨r, rfl, he⟩
  · intro hne
    cases hs : BST.search (BST.build ts) p with
    | none => rfl
    | some r =>
      obtain ⟨hm, he⟩ := BST.search_sound _ p r hs
      exact absurd ⟨r, (BST.mem_inorder_build ts r).mp hm, he⟩ hne

/-- C8: the in-order traversal of the priority search tree built from
any insertion sequence yields priorities in non-decreasing order. -/
theorem C8_inorder_nondecreasing (ts : List Task) :
    List.Pairwise (fun a b : Task => a.priority ≤ b.priority)
      (BST.inorder_traversal (BST.build ts)) :=
  BST.Inv_pairwise _ (BST.Inv_build ts)

/-! ## Durable store (`db/taskdb.py`) and the app's undo (`main.py`)

The store is a rowid table with `id INTEGER PRIMARY KEY AUTOINCREMENT`:
ids are assigned by a monotone counter and never reused, and
`get_all_tasks` (`SELECT *`) returns rows in rowid = insertion order,
which `TaskManagerApp.undo` relies on ("crude way to get last
inserted"). -/

/-- The field values of a task as typed into the dialog — no id, the
store assigns that. -/
structure Fields where
  title : String
  description : String
  priority : Int
  status : String
  due_date : String
  deriving DecidableEq, Repr

/-- One stored row: the autoincrement id plus the fields. -/
structure Row where
  id : Nat
  fields : Fields
  deriving DecidableEq, Repr

/-- `TaskDatabase`: rows in insertion order plus the next
autoincrement id. -/
structure TaskDatabase where
  rows : List Row
  next_id : Nat
  deriving DecidableEq, Repr

namespace TaskDatabase

/-- `add_task`: INSERT without an id; AUTOINCREMENT assigns the next
one. -/
def add_task (db : TaskDatabase) (f : Fields) : TaskDatabase :=
  ⟨db.rows ++ [⟨db.next_id, f⟩], db.next_id + 1⟩

/-- `get_all_tasks`: `SELECT *`, rowid order. -/
def get_all_tasks (db : TaskDatabase) : List Row := db.rows

/-- `get_task_by_id`. -/
def get_task_by_id (db : TaskDatabase) (i : Nat) : Option Row :=
  db.rows.find? (fun r => r.id == i)

/-- `delete_task`: DELETE WHERE id = ?. -/
def delete_task (db : TaskDatabase) (i : Nat) : TaskDatabase :=
  ⟨db.rows.filter (fun r => decide (r.id ≠ i)), db.next_id⟩

/-- `update_task`: overwrite all five fields WHERE id = ?. -/
def update_task (db : TaskDatabase) (i : Nat) (f : Fields) : TaskDatabase :=
  ⟨db.rows.map (fun r => if r.id = i then ⟨r.id, f⟩ else r), db.next_id⟩

end TaskDatabase

/-- `TaskAction` as `main.py` constructs them: a `CREATE` stores only
the dialog's field values (no id — the spec's known ambiguity); a
`DELETE` stores the deleted row's data including its id; an `UPDATE`
would store the id, post- and pre-mutation data. -/
inductive TaskAction where
  | CREATE (data : Fields)
  | DELETE (id : Nat) (data : Fields)
  | UPDATE (id : Nat) (data prev : Fields)
  deriving DecidableEq, Repr

/-- `TaskManagerApp`: the durable store plus the coordinator.  The
derived index/tree/queue are rebuilt wholesale from the store by
`load_tasks` and carry no state of their own. -/
structure TaskManagerApp where
  db : TaskDatabase
  undo_redo : UndoRedoManager TaskAction
  deriving DecidableEq, Repr

namespace TaskManagerApp

/-- `add_task_popup`'s `save`: add the task to the store and record a
`CREATE` action. -/
def save_task (app : TaskManagerApp) (f : Fields) : Option TaskManagerApp :=
  (UndoRedoManager.execute_action app.undo_redo (TaskAction.CREATE f)).map
    fun m => ⟨app.db.add_task f, m⟩

/-- `delete_selected`: look the row up, delete it and record a
`DELETE` action carrying its data; absent ids only pop a warning. -/
def delete_selected (app : TaskManagerApp) (i : Nat) :
    Option TaskManagerApp :=
  match app.db.get_task_by_id i with
  | none => some app
  | some row =>
    (UndoRedoManager.execute_action app.undo_redo
        (TaskAction.DELETE row.id row.fields)).map
      fun m => ⟨app.db.delete_task i, m⟩

/-- `TaskManagerApp.undo`: pop the coordinator, then apply the inverse
effect to the store.  A `CREATE` is undone by deleting
`get_all_tasks()[-1]` — the row currently last in the store, not the
one the action created (`[-1]` on an empty store raises, modelled
`none`).  A `DELETE` is undone by re-adding the stored data, which
assigns a fresh id.  An `UPDATE` is undone by writing back the stored
pre-mutation data. -/
def app_undo (app : TaskManagerApp) : Option TaskManagerApp :=
  (UndoRedoManager.undo app.undo_redo).bind fun p =>
    match p.1 with
    | none => some ⟨app.db, p.2⟩
    | some (TaskAction.CREATE _) =>
      match app.db.get_all_tasks.getLast? with
      | none => none
      | some last => some ⟨app.db.delete_task last.id, p.2⟩
    | some (TaskAction.DELETE _ data) => some ⟨app.db.add_task data, p.2⟩
    | some (TaskAction.UPDATE i _ prev) =>
      some ⟨app.db.update_task i prev, p.2⟩

end TaskManagerApp

/-- A pre-existing row's fields for the C7 scenario. -/
def fieldsX : Fields := ⟨"existing", "", 1, "To Do", "2024-01-01"⟩

/-- The fields of the record the CREATE under scrutiny creates. -/
def fieldsA : Fields := ⟨"created", "", 2, "To Do", "2024-02-02"⟩

/-- The C7 scenario: a store holding row 1; the user creates a task
(assigned id 2), deletes row 1, presses undo (which re-inserts row 1's
data under the fresh id 3, now the last row), then presses undo again —
popping the `CREATE` whose record is row 2. -/
def c7_script : Option TaskManagerApp :=
  (TaskManagerApp.save_task
      ⟨⟨[⟨1, fieldsX⟩], 2⟩, ⟨⟨[], 50⟩, ⟨[], 50⟩, 50⟩⟩ fieldsA).bind
    fun a1 => (TaskManagerApp.delete_selected a1 1).bind
    fun a2 => (TaskManagerApp.app_undo a2).bind TaskManagerApp.app_undo

/-- C7 is false on the code: in the scenario of `c7_script` the second
undo pops the `CREATE` that created row 2, but deletes row 3 (the
re-inserted copy of the other record) because it re-derives its target
as the store's last row.  The created row 2 survives its own undo. -/
theorem C7_counterexample_undo_deletes_wrong_row :
    c7_script.map (fun a => a.db.rows) = some [⟨2, fieldsA⟩] := by decide

theorem filter_ne_getLast_id (l : List Row) (last : Row)
    (hl : l.getLast? = some last)
    (hnodup : (l.map Row.id).Nodup) :
    l.filter (fun r => decide (r.id ≠ last.id)) = l.dropLast := by
  have hne : l ≠ [] := by
    intro h
    rw [h] at hl
    simp at hl
  have hsplit : l.dropLast ++ [l.getLast hne] = l :=
    List.dropLast_append_getLast hne
  have hlast : l.getLast hne = last := by
    have := List.getLast?_eq_getLast l hne
    rw [hl] at this
    exact (Option.some.injEq _ _).mp this.symm
  rw [hlast] at hsplit
  nth_rewrite 1 [← hsplit]
  rw [List.filter_append]
  have h1 : List.filter (fun r => decide (r.id ≠ last.id)) [last] = [] := by
    simp
  rw [h1, List.append_nil]
  apply List.filter_eq_self.mpr
  intro r hr
  simp only [decide_eq_true_eq]
  intro he
  rw [← hsplit] at hnodup
  rw [List.map_append] at hnodup
  rcases List.nodup_append.mp hnodup with ⟨_, _, hdisj⟩
  exact hdisj (a := r.id) (by exact List.mem_map_of_mem _ hr)
    (by simp [he])

/-- C7 (amended): undoing a `CREATE` deletes exactly the row currently
last in the store's `readAll` order — which is the row the `CREATE`
created precisely when that row is still the most recently inserted.
Stated for every app state whose undo stack has a `CREATE` on top,
whose store is non-empty with distinct ids, and whose redo stack has
positive capacity. -/
theorem C7_create_undo_deletes_last_row (app : TaskManagerApp)
    (f : Fields)
    (htop : app.undo_redo.undo_stack.items.getLast?
      = some (TaskAction.CREATE f))
    (hne : app.db.rows ≠ [])
    (hnodup : (app.db.rows.map Row.id).Nodup)
    (hK : 0 < app.undo_redo.redo_stack.max_size) :
    (TaskManagerApp.app_undo app).map (fun a => a.db.rows)
      = some app.db.rows.dropLast := by
  obtain ⟨⟨rows, nid⟩, ⟨⟨u, k⟩, ⟨r, K⟩, M⟩⟩ := app
  dsimp only at htop hne hnodup hK ⊢
  rw [TaskManagerApp.app_undo, UndoRedoManager.undo]
  dsimp only
  rw [show (Stack.mk u k).pop
      = (some (TaskAction.CREATE f), ⟨u.dropLast, k⟩) from by
    simp [Stack.pop, htop]]
  dsimp only
  rw [Stack.push_spec _ _ hK]
  rw [Option.map_some', Option.some_bind]
  dsimp only
  obtain ⟨last, hlast⟩ : ∃ last, rows.getLast? = some last := by
    cases hr : rows.getLast? with
    | none => exact absurd (List.getLast?_eq_none_iff.mp hr) hne
    | some x => exact ⟨x, rfl⟩
  rw [show (TaskDatabase.mk rows nid).get_all_tasks.getLast? = some last from
    hlast]
  dsimp only [TaskDatabase.delete_task]
  rw [filter_ne_getLast_id rows last hlast hnodup]
  rfl

theorem C7_create_undo_deletes_last_row_witness :
    (TaskManagerApp.app_undo
        ⟨⟨[⟨1, fieldsA⟩], 2⟩,
         ⟨⟨[TaskAction.CREATE fieldsA], 50⟩, ⟨[], 50⟩, 50⟩⟩).map
        (fun a => a.db.rows)
      = some [] :=
  C7_create_undo_deletes_last_row _ fieldsA (by decide) (by decide)
    (by decide) (by decide)

/-! ## Ordered index, pointer level (`LinkedList.py`)

The structural invariant of the claim — the stored `size` versus the
nodes reachable from `head`, and the `tail` reference — is about the
pointer structure, so the list is modelled at that level: a heap of
`Node` cells addressed by allocation order (each `Node(data)` call
allocates at the end), with `head`/`tail` as optional addresses and
the Python `==` on nodes read as address identity.  A returned `none`
models a crash (attribute access on `None`, a dangling address, or a
walk that would not terminate); under the invariant no operation
crashes. -/

/-- One heap cell: `Node.data` and `Node.next`. -/
structure HNode (α : Type) where
  data : α
  next : Option Nat
  deriving DecidableEq, Repr

/-- `LinkedList`: the heap plus `head`, `tail` and `size`. -/
structure LinkedList (α : Type) where
  mem : List (HNode α)
  head : Option Nat
  tail : Option Nat
  size : Nat
  deriving DecidableEq, Repr

namespace LinkedList

/-- `LinkedList.__init__`. -/
def empty (α : Type) : LinkedList α := ⟨[], none, none, 0⟩

/-- `is_empty`: `self.head is None`. -/
def is_empty (s : LinkedList α) : Bool := s.head.isNone

/-- `insert_at_head`: allocate, link in front (or set both ends when
empty), bump `size`. -/
def insert_at_head (s : LinkedList α) (d : α) : LinkedList α :=
  if s.is_empty then
    ⟨s.mem ++ [⟨d, none⟩], some s.mem.length, some s.mem.length, s.size + 1⟩
  else
    ⟨s.mem ++ [⟨d, s.head⟩], some s.mem.length, s.tail, s.size + 1⟩

/-- `insert_at_tail`: allocate, hang off `self.tail` (dereferenced, so
a list whose head is set but whose tail is missing crashes), move
`tail`, bump `size`. -/
def insert_at_tail (s : LinkedList α) (d : α) : Option (LinkedList α) :=
  if s.is_empty then
    some ⟨s.mem ++ [⟨d, none⟩], some s.mem.length, some s.mem.length,
          s.size + 1⟩
  else
    match s.tail with
    | none => none
    | some ta =>
      match s.mem[ta]? with
      | none => none
      | some nd =>
        some ⟨(s.mem.set ta ⟨nd.data, some s.mem.length⟩) ++ [⟨d, none⟩],
              s.head, some s.mem.length, s.size + 1⟩

/-- `current = current.next` iterated `k` times from address `a`;
`none` models dereferencing `None` or a dangling address. -/
def walkN (mem : List (HNode α)) : Nat → Nat → Option Nat
  | 0, a => some a
  | k + 1, a =>
    match mem[a]? with
    | none => none
    | some nd =>
      match nd.next with
      | none => none
      | some b => walkN mem k b

/-- `insert_at_position`: out-of-range positions answer `False` with no
change (`position < 0` cannot arise for a natural number); positions
`0` and `size` delegate to the end inserts; otherwise navigate to
`position - 1` and splice the new node in after it. -/
def insert_at_position (s : LinkedList α) (position : Nat) (d : α) :
    Option (Bool × LinkedList α) :=
  if position > s.size then some (false, s)
  else if position = 0 then some (true, s.insert_at_head d)
  else if position = s.size then
    (s.insert_at_tail d).map fun s' => (true, s')
  else
    match s.head with
    | none => none
    | some h =>
      match walkN s.mem (position - 1) h with
      | none => none
      | some cur =>
        match s.mem[cur]? with
        | none => none
        | some nd =>
          some (true, ⟨(s.mem.set cur ⟨nd.data, some s.mem.length⟩)
              ++ [⟨d, nd.next⟩], s.head, s.tail, s.size + 1⟩)

/-- `delete_at_head`: `None` on empty; the `self.head == self.tail`
object identity test is address equality; a single node clears both
ends. -/
def delete_at_head (s : LinkedList α) : Option (Option α × LinkedList α) :=
  match s.head with
  | none => some (none, s)
  | some h =>
    match s.mem[h]? with
    | none => none
    | some nd =>
      if s.head = s.tail then
        some (some nd.data, ⟨s.mem, none, none, s.size - 1⟩)
      else
        some (some nd.data, ⟨s.mem, nd.next, s.tail, s.size - 1⟩)

/-- The `while current.next != self.tail` walk of `delete_at_tail`:
stop at the node whose `next` is the tail address.  Fuel bounds the
loop; running out models the non-termination a cyclic heap would
produce in Python. -/
def find_prev (mem : List (HNode α)) : Nat → Nat → Nat → Option Nat
  | 0, _, _ => none
  | fuel + 1, a, ta =>
    match mem[a]? with
    | none => none
    | some nd =>
      if nd.next = some ta then some a
      else
        match nd.next with
        | none => none
        | some b => find_prev mem fuel b ta

/-- `delete_at_tail`: empty guard, `self.tail.data` read, single-node
clear, else walk from `head` to the node before `tail`, cut its `next`
and retarget `tail`. -/
def delete_at_tail (s : LinkedList α) : Option (Option α × LinkedList α) :=
  if s.is_empty then some (none, s)
  else
    match s.tail with
    | none => none
    | some ta =>
      match s.mem[ta]? with
      | none => none
      | some tnd =>
        if s.head = s.tail then
          some (some tnd.data, ⟨s.mem, none, none, s.size - 1⟩)
        else
          match s.head with
          | none => none
          | some h =>
            match find_prev s.mem (s.mem.length + 1) h ta with
            | none => none
            | some prev =>
              match s.mem[prev]? with
              | none => none
              | some pnd =>
                some (some tnd.data,
                  ⟨s.mem.set prev ⟨pnd.data, none⟩, s.head, some prev,
                   s.size - 1⟩)

/-- The pointer-reversal loop of `reverse`; fuel models the
finiteness of the traversal. -/
def rev_loop : List (HNode α) → Nat → Option Nat → Option Nat →
    Option (List (HNode α) × Option Nat)
  | mem, _, prev, none => some (mem, prev)
  | _, 0, _, some _ => none
  | mem, fuel + 1, prev, some c =>
    match mem[c]? with
    | none => none
    | some nd => rev_loop (mem.set c ⟨nd.data, prev⟩) fuel (some c) nd.next

/-- `reverse`: `self.tail = self.head`, reverse every `next` pointer,
`self.head = prev`; `size` untouched. -/
def reverse (s : LinkedList α) : Option (LinkedList α) :=
  (rev_loop s.mem (s.mem.length + 1) none s.head).map
    fun p => ⟨p.1, p.2, s.head, s.size⟩

/-- `clear`: drop both ends and the count (the cells stay in the heap
as garbage, as dropped Python objects would until collected). -/
def clear (s : LinkedList α) : LinkedList α := ⟨s.mem, none, none, 0⟩

end LinkedList

/-- A path through the heap: starting from pointer `o`, the addresses
`l` are linked in order by `next`, and the last link is the pointer
`e`. -/
inductive Path (mem : List (HNode α)) :
    Option Nat → List Nat → Option Nat → Prop where
  | nil (o : Option Nat) : Path mem o [] o
  | cons {a : Nat} {n : HNode α} {l : List Nat} {e : Option Nat}
      (hm : mem[a]? = some n) (hp : Path mem n.next l e) :
      Path mem (some a) (a :: l) e

/-- The structural invariant, by its spine: the addresses reachable
from `head` form a `next`-linked duplicate-free chain ending in the
null pointer, `size` is its length and `tail` its last address
(absent iff `head` is absent). -/
def wf (s : LinkedList α) : Prop :=
  ∃ addrs : List Nat, Path s.mem s.head addrs none ∧
    s.size = addrs.length ∧ s.tail = addrs.getLast? ∧ addrs.Nodup

theorem Path_valid {mem : List (HNode α)} {o : Option Nat} {l : List Nat}
    {e : Option Nat} (h : Path mem o l e) : ∀ a ∈ l, a < mem.length := by
  induction h with
  | nil => simp
  | cons hm hp ih =>
    intro x hx
    rcases List.mem_cons.mp hx with rfl | hx
    · exact (List.getElem?_eq_some_iff.mp hm).1
    · exact ih x hx

theorem Path_append {mem : List (HNode α)} {o : Option Nat} {l1 : List Nat}
    {m : Option Nat} {l2 : List Nat} {e : Option Nat}
    (h1 : Path mem o l1 m) (h2 : Path mem m l2 e) :
    Path mem o (l1 ++ l2) e := by
  induction h1 with
  | nil => simpa using h2
  | cons hm hp ih => exact Path.cons hm (ih h2)

theorem Path_grow {mem ext : List (HNode α)} {o : Option Nat}
    {l : List Nat} {e : Option Nat} (h : Path mem o l e) :
    Path (mem ++ ext) o l e := by
  induction h with
  | nil => exact Path.nil _
  | cons hm hp ih =>
    refine Path.cons ?_ ih
    rw [List.getElem?_append, if_pos (List.getElem?_eq_some_iff.mp hm).1]
    exact hm

theorem Path_set_of_not_mem {mem : List (HNode α)} {o : Option Nat}
    {l : List Nat} {e : Option Nat} {j : Nat} {x : HNode α}
    (h : Path mem o l e) (hj : j ∉ l) :
    Path (mem.set j x) o l e := by
  induction h with
  | cons hm hp ih =>
    rename_i a nd l' e'
    have hja : j ≠ a := by
      intro hrfl
      exact hj (hrfl ▸ List.mem_cons_self a l')
    refine Path.cons ?_ (ih fun hx => hj (List.mem_cons_of_mem _ hx))
    rw [List.getElem?_set_ne hja]
    exact hm
  | nil => exact Path.nil _

/-- The pointer a spine starts from is its first address. -/
theorem Path_head {mem : List (HNode α)} {o : Option Nat} {l : List Nat}
    {e : Option Nat} (h : Path mem o l e) (hne : l ≠ []) :
    o = l.head? := by
  cases h with
  | nil => exact absurd rfl hne
  | cons hm hp => rfl

theorem Path_nil_inv {mem : List (HNode α)} {l : List Nat}
    {e : Option Nat} (h : Path mem none l e) : l = [] ∧ e = none := by
  cases h with
  | nil => exact ⟨rfl, rfl⟩

/-- An empty path links its two end pointers. -/
theorem Path_end_of_nil {mem : List (HNode α)} {o e : Option Nat}
    (h : Path mem o [] e) : o = e := by
  cases h
  rfl

theorem Path_cons_inv {mem : List (HNode α)} {a : Nat} {l : List Nat}
    {e : Option Nat} (h : Path mem (some a) (a :: l) e) :
    ∃ nd, mem[a]? = some nd ∧ Path mem nd.next l e := by
  cases h with
  | cons hm hp => exact ⟨_, hm, hp⟩

/-- Every address on a path carries a node. -/
theorem Path_node {mem : List (HNode α)} {o : Option Nat} {l : List Nat}
    {e : Option Nat} (h : Path mem o l e) :
    ∀ a ∈ l, ∃ nd, mem[a]? = some nd := by
  induction h with
  | nil => simp
  | cons hm hp ih =>
    intro x hx
    rcases List.mem_cons.mp hx with rfl | hx
    · exact ⟨_, hm⟩
    · exact ih x hx

/-- Splitting a snoc off the end of a path. -/
theorem Path_snoc_inv {mem : List (HNode α)} {o : Option Nat}
    {l : List Nat} {a : Nat} {e : Option Nat}
    (h : Path mem o (l ++ [a]) e) :
    ∃ nd, mem[a]? = some nd ∧ nd.next = e ∧ Path mem o l (some a) := by
  induction l generalizing o with
  | nil =>
    simp only [List.nil_append] at h
    have hoa : o = some a := by
      cases h with
      | cons hm hp => rfl
    subst hoa
    obtain ⟨nd, hm, hp⟩ := Path_cons_inv h
    exact ⟨nd, hm, Path_end_of_nil hp, Path.nil _⟩
  | cons b l ih =>
    have hob : o = some b := by
      cases h with
      | cons hm hp => rfl
    subst hob
    obtain ⟨nd, hm, hp⟩ := Path_cons_inv h
    obtain ⟨nd', hm', he', hp'⟩ := ih hp
    exact ⟨nd', hm', he', Path.cons hm hp'⟩

/-- A duplicate-free list of addresses below `N` has at most `N`
entries. -/
theorem length_le_of_nodup_lt (l : List Nat) (N : Nat) (hnd : l.Nodup)
    (hlt : ∀ a ∈ l, a < N) : l.length ≤ N := by
  have h1 : l.toFinset ⊆ Finset.range N := by
    intro a ha
    rw [Finset.mem_range]
    exact hlt a (List.mem_toFinset.mp ha)
  have h2 := Finset.card_le_card h1
  rw [Finset.card_range] at h2
  rwa [List.toFinset_card_of_nodup hnd] at h2

/-- A path along a nonempty address list starts at its first address. -/
theorem Path_head_some {mem : List (HNode α)} {o : Option Nat} {b : Nat}
    {l : List Nat} {e : Option Nat} (h : Path mem o (b :: l) e) :
    o = some b := by
  cases h with
  | cons hm hp => rfl

theorem Path_split {mem : List (HNode α)} {o : Option Nat} {l : List Nat}
    {e : Option Nat} (h : Path mem o l e) (i : Nat) :
    ∃ m, Path mem o (l.take i) m ∧ Path mem m (l.drop i) e := by
  induction i generalizing o l with
  | zero => exact ⟨o, Path.nil _, by simpa using h⟩
  | succ i ih =>
    cases l with
    | nil => exact ⟨o, Path.nil _, by simpa using h⟩
    | cons a l =>
      have hoa : o = some a := by
        cases h with
        | cons hm hp => rfl
      subst hoa
      obtain ⟨nd, hm, hp⟩ := Path_cons_inv h
      obtain ⟨m, h1, h2⟩ := ih hp
      exact ⟨m, Path.cons hm h1, by simpa using h2⟩

theorem walkN_spec {mem : List (HNode α)} {a : Nat} {l : List Nat}
    {e : Option Nat} (h : Path mem (some a) (a :: l) e) (i : Nat)
    (hi : i ≤ l.length) :
    LinkedList.walkN mem i a = (a :: l)[i]? := by
  induction i generalizing a l with
  | zero => simp [LinkedList.walkN]
  | succ i ih =>
    cases l with
    | nil => simp at hi
    | cons b l =>
      obtain ⟨nd, hm, hp⟩ := Path_cons_inv h
      have hb : nd.next = some b := Path_head_some hp
      rw [hb] at hp
      have hstep : LinkedList.walkN mem (i + 1) a
          = LinkedList.walkN mem i b := by
        simp only [LinkedList.walkN, hm, hb]
      rw [hstep, List.getElem?_cons_succ]
      exact ih hp (by simpa using hi)

/-- Following `next` exactly `count - 1` times from the head of a
spine reaches its last address. -/
theorem walkN_tail_of_path {mem : List (HNode α)} {a : Nat} {l : List Nat}
    {e : Option Nat} (h : Path mem (some a) (a :: l) e) :
    LinkedList.walkN mem l.length a = (a :: l).getLast? := by
  rw [walkN_spec h l.length (le_refl _), List.getLast?_eq_getElem?]
  simp

/-- `insert_at_head` preserves the invariant. -/
theorem insert_at_head_wf (s : LinkedList α) (d : α) (h : wf s) :
    wf (s.insert_at_head d) := by
  obtain ⟨addrs, hp, hsz, htl, hnd⟩ := h
  rw [LinkedList.insert_at_head]
  by_cases he : s.is_empty
  · rw [if_pos he]
    have hh : s.head = none := by
      rwa [LinkedList.is_empty, Option.isNone_iff_eq_none] at he
    rw [hh] at hp
    obtain ⟨rfl, -⟩ := Path_nil_inv hp
    refine ⟨[s.mem.length], ?_, ?_, ?_, ?_⟩
    · exact Path.cons (n := ⟨d, none⟩) (by simp) (Path.nil _)
    · simpa using hsz
    · simp
    · simp
  · rw [if_neg he]
    obtain ⟨h0, hh0⟩ : ∃ h0, s.head = some h0 := by
      cases hs : s.head with
      | none => rw [LinkedList.is_empty, hs] at he; simp at he
      | some x => exact ⟨x, rfl⟩
    rw [hh0] at hp
    obtain ⟨rest, rfl⟩ : ∃ rest, addrs = h0 :: rest := by
      cases hp with
      | cons hm hp2 => exact ⟨_, rfl⟩
    refine ⟨s.mem.length :: h0 :: rest, ?_, ?_, ?_, ?_⟩
    · refine Path.cons (n := ⟨d, s.head⟩) (by simp) ?_
      rw [hh0]
      exact Path_grow hp
    · simpa using hsz
    · rw [List.getLast?_cons_cons]
      exact htl
    · refine List.nodup_cons.mpr ⟨?_, hnd⟩
      intro hmem
      exact absurd (Path_valid hp _ hmem) (by simp)

/-- `insert_at_tail` succeeds on a well-formed list and preserves the
invariant. -/
theorem insert_at_tail_spec (s : LinkedList α) (d : α) (h : wf s) :
    ∃ s', s.insert_at_tail d = some s' ∧ wf s' := by
  obtain ⟨mem, hd, tl, sz⟩ := s
  obtain ⟨addrs, hp, hsz, htl, hnd⟩ := h
  dsimp only at hp hsz htl hnd
  rw [LinkedList.insert_at_tail]
  by_cases he : (LinkedList.mk mem hd tl sz).is_empty
  · rw [if_pos he]
    have hh : hd = none := by
      rwa [LinkedList.is_empty, Option.isNone_iff_eq_none] at he
    subst hh
    obtain ⟨rfl, -⟩ := Path_nil_inv hp
    refine ⟨_, rfl, [mem.length], ?_, ?_, ?_, ?_⟩
    · exact Path.cons (n := ⟨d, none⟩) (by simp) (Path.nil _)
    · simpa using hsz
    · simp
    · simp
  · rw [if_neg he]
    obtain ⟨h0, hh0⟩ : ∃ h0, hd = some h0 := by
      cases hs : hd with
      | none => rw [LinkedList.is_empty, hs] at he; simp at he
      | some x => exact ⟨x, rfl⟩
    subst hh0
    obtain ⟨rest, rfl⟩ : ∃ rest, addrs = h0 :: rest := by
      cases hp with
      | cons hm hp2 => exact ⟨_, rfl⟩
    obtain ⟨l0, ta, hsplit⟩ : ∃ l0 ta, h0 :: rest = l0 ++ [ta] := by
      rcases List.eq_nil_or_concat (h0 :: rest) with hnil | ⟨l0, ta, heq⟩
      · simp at hnil
      · exact ⟨l0, ta, by simpa using heq⟩
    rw [hsplit] at hp hsz htl hnd
    have htl' : tl = some ta := by
      rw [htl, List.getLast?_concat]
    subst htl'
    obtain ⟨tnd, htm, htnext, hpl0⟩ := Path_snoc_inv hp
    dsimp only
    rw [htm]
    have hta_lt : ta < mem.length := (List.getElem?_eq_some_iff.mp htm).1
    have hta_not_l0 : ta ∉ l0 := by
      have hx := List.nodup_append.mp hnd
      intro hmem
      exact hx.2.2 hmem (List.mem_singleton_self ta)
    refine ⟨_, rfl, l0 ++ [ta] ++ [mem.length], ?_, ?_, ?_, ?_⟩
    · dsimp only
      rw [List.append_assoc, List.singleton_append]
      have hstep1 : Path ((mem.set ta ⟨tnd.data, some mem.length⟩)
          ++ [⟨d, none⟩]) (some h0) l0 (some ta) :=
        Path_grow (Path_set_of_not_mem hpl0 hta_not_l0)
      refine Path_append hstep1 ?_
      refine Path.cons (n := ⟨tnd.data, some mem.length⟩) ?_ ?_
      · rw [List.getElem?_append, if_pos (by simpa using hta_lt)]
        rw [List.getElem?_set_self (by simpa using hta_lt)]
      · refine Path.cons (n := ⟨d, none⟩) ?_ (Path.nil _)
        rw [List.getElem?_append]
        simp
    · dsimp only
      simp only [List.length_append, List.length_cons, List.length_nil]
      simp only [List.length_append, List.length_cons, List.length_nil] at hsz
      omega
    · dsimp only
      rw [List.getLast?_append_of_ne_nil _ (by simp)]
      simp
    · dsimp only
      rw [List.nodup_append]
      refine ⟨hnd, by simp, ?_⟩
      intro x hx hx2
      rw [List.mem_singleton] at hx2
      have hlt : x < mem.length := Path_valid hp x hx
      omega

/-- `delete_at_head` never crashes on a well-formed list and preserves
the invariant (single-node lists clear both ends). -/
theorem delete_at_head_spec (s : LinkedList α) (h : wf s) :
    ∃ v s', s.delete_at_head = some (v, s') ∧ wf s' := by
  obtain ⟨mem, hd, tl, sz⟩ := s
  obtain ⟨addrs, hp, hsz, htl, hnd⟩ := h
  dsimp only at hp hsz htl hnd
  rw [LinkedList.delete_at_head]
  cases hd with
  | none =>
    exact ⟨none, _, rfl, addrs, hp, hsz, htl, hnd⟩
  | some h0 =>
    obtain ⟨rest, rfl⟩ : ∃ rest, addrs = h0 :: rest := by
      cases hp with
      | cons hm hp2 => exact ⟨_, rfl⟩
    obtain ⟨nd, hm, hpr⟩ := Path_cons_inv hp
    dsimp only
    rw [hm]
    dsimp only
    by_cases hht : (some h0 : Option Nat) = tl
    · rw [if_pos hht]
      have hrest : rest = [] := by
        by_contra hne
        have h1 : (h0 :: rest).getLast? = rest.getLast? := by
          cases rest with
          | nil => exact absurd rfl hne
          | cons b r => rw [List.getLast?_cons_cons]
        have h2 : rest.getLast? = some h0 := by
          rw [← h1, ← htl, ← hht]
        exact (List.nodup_cons.mp hnd).1 (List.mem_of_getLast?_eq_some h2)
      subst hrest
      refine ⟨some nd.data, _, rfl, [], Path.nil _, ?_, rfl, List.nodup_nil⟩
      simp only [List.length_cons, List.length_nil] at hsz
      simp only [List.length_nil]
      omega
    · rw [if_neg hht]
      have hrest : rest ≠ [] := by
        intro hr
        subst hr
        exact hht (by rw [htl]; simp)
      refine ⟨some nd.data, _, rfl, rest, hpr, ?_, ?_, ?_⟩
      · simp only [List.length_cons] at hsz
        dsimp only
        omega
      · dsimp only
        rw [htl]
        cases rest with
        | nil => exact absurd rfl hrest
        | cons b r => rw [List.getLast?_cons_cons]
      · exact (List.nodup_cons.mp hnd).2

/-- `insert_at_position` never crashes on a well-formed list and
preserves the invariant for every position (out-of-range ones make no
change). -/
theorem insert_at_position_spec (s : LinkedList α) (position : Nat)
    (d : α) (h : wf s) :
    ∃ b s', s.insert_at_position position d = some (b, s') ∧ wf s' := by
  rw [LinkedList.insert_at_position]
  by_cases h1 : position > s.size
  · rw [if_pos h1]
    exact ⟨false, s, rfl, h⟩
  · rw [if_neg h1]
    by_cases h2 : position = 0
    · rw [if_pos h2]
      exact ⟨true, _, rfl, insert_at_head_wf s d h⟩
    · rw [if_neg h2]
      by_cases h3 : position = s.size
      · rw [if_pos h3]
        obtain ⟨s', hs', hwf⟩ := insert_at_tail_spec s d h
        rw [hs']
        exact ⟨true, s', rfl, hwf⟩
      · rw [if_neg h3]
        obtain ⟨mem, hd, tl, sz⟩ := s
        obtain ⟨addrs, hp, hsz, htl, hnd⟩ := h
        dsimp only at hp hsz htl hnd h1 h3 ⊢
        have hpos1 : 1 ≤ position := Nat.one_le_iff_ne_zero.mpr h2
        have hposlt : position < addrs.length := by
          rw [← hsz]
          exact lt_of_le_of_ne (not_lt.mp h1) h3
        obtain ⟨a0, rest, rfl⟩ : ∃ a0 rest, addrs = a0 :: rest := by
          cases addrs with
          | nil => simp at hposlt
          | cons a0 rest => exact ⟨a0, rest, rfl⟩
        have hhd : hd = some a0 := Path_head_some hp
        subst hhd
        dsimp only
        have hwalk : LinkedList.walkN mem (position - 1) a0
            = (a0 :: rest)[position - 1]? :=
          walkN_spec hp (position - 1) (by
            simp only [List.length_cons] at hposlt
            omega)
        obtain ⟨cur, hcur⟩ : ∃ cur, (a0 :: rest)[position - 1]? = some cur := by
          cases hg : (a0 :: rest)[position - 1]? with
          | none =>
            rw [List.getElem?_eq_none_iff] at hg
            omega
          | some cur => exact ⟨cur, rfl⟩
        rw [hwalk, hcur]
        dsimp only
        obtain ⟨cnd, hcnd⟩ :=
          Path_node hp cur (List.getElem?_mem hcur)
        rw [hcnd]
        dsimp only
        -- decompose the spine at the insertion point
        obtain ⟨m, htake, hdrop⟩ := Path_split hp position
        have htake_eq : (a0 :: rest).take position
            = (a0 :: rest).take (position - 1) ++ [cur] := by
          have hpeq : position = (position - 1) + 1 := by omega
          rw [hpeq, List.take_succ, hcur]
          rfl
        have hsnoc := Path_snoc_inv (htake_eq ▸ htake)
        obtain ⟨cnd', hcnd', hnext', htake1⟩ := hsnoc
        have hcndeq : cnd' = cnd := by
          rw [hcnd] at hcnd'
          exact ((Option.some.injEq _ _).mp hcnd').symm
        rw [hcndeq] at hnext'
        have hm : m = cnd.next := hnext'.symm
        subst hm
        have hcur_lt : cur < mem.length :=
          (List.getElem?_eq_some_iff.mp hcnd).1
        have hnodup_take : ((a0 :: rest).take position).Nodup :=
          hnd.sublist (List.take_sublist _ _)
        have hcur_not_take1 : cur ∉ (a0 :: rest).take (position - 1) := by
          rw [htake_eq] at hnodup_take
          have := List.nodup_append.mp hnodup_take
          intro hmem
          exact this.2.2 hmem (List.mem_singleton_self cur)
        have hcur_not_drop : cur ∉ (a0 :: rest).drop position := by
          have hsp : (a0 :: rest).take position ++ (a0 :: rest).drop position
              = a0 :: rest := List.take_append_drop _ _
          have hnodup2 : ((a0 :: rest).take position
              ++ (a0 :: rest).drop position).Nodup := by rw [hsp]; exact hnd
          have hdis := List.nodup_append.mp hnodup2
          intro hmem
          refine hdis.2.2 ?_ hmem
          rw [htake_eq]
          exact List.mem_append_right _ (List.mem_singleton_self cur)
        refine ⟨true, _, rfl,
          (a0 :: rest).take position
            ++ mem.length :: (a0 :: rest).drop position, ?_, ?_, ?_, ?_⟩
        · dsimp only
          refine Path_append (m := some mem.length) ?_ ?_
          · -- path over the prefix, now ending at the fresh node
            rw [htake_eq]
            refine Path_append
              (Path_grow (Path_set_of_not_mem htake1 hcur_not_take1)) ?_
            refine Path.cons (n := ⟨cnd.data, some mem.length⟩) ?_ (Path.nil _)
            rw [List.getElem?_append, if_pos (by simpa using hcur_lt)]
            rw [List.getElem?_set_self (by simpa using hcur_lt)]
          · refine Path.cons (n := ⟨d, cnd.next⟩) ?_ ?_
            · rw [List.getElem?_append]
              simp
            · exact Path_grow (Path_set_of_not_mem hdrop hcur_not_drop)
        · dsimp only
          simp only [List.length_append, List.length_cons, List.length_take,
            List.length_drop]
          simp only [List.length_cons] at hposlt hsz
          omega
        · dsimp only
          rw [htl]
          have hdne : (a0 :: rest).drop position ≠ [] := by
            intro hdnil
            have hlen : ((a0 :: rest).drop position).length = 0 := by
              rw [hdnil]
              rfl
            rw [List.length_drop] at hlen
            simp only [List.length_cons] at hlen hposlt
            omega
          rw [List.getLast?_append_of_ne_nil _ (by simp)]
          have h4 : (mem.length :: (a0 :: rest).drop position).getLast?
              = ((a0 :: rest).drop position).getLast? := by
            cases hdd : (a0 :: rest).drop position with
            | nil => exact absurd hdd hdne
            | cons x xs => rw [List.getLast?_cons_cons]
          rw [h4]
          conv_lhs => rw [← List.take_append_drop position (a0 :: rest)]
          rw [List.getLast?_append_of_ne_nil _ hdne]
        · dsimp only
          rw [List.nodup_middle]
          refine List.nodup_cons.mpr ⟨?_, ?_⟩
          · rw [List.take_append_drop]
            intro hmem
            exact absurd (Path_valid hp _ hmem) (by simp)
          · rw [List.take_append_drop]
            exact hnd

/-- The `delete_at_tail` walk stops exactly at the next-to-last node:
on a chain from `a` whose links lead to the tail address `ta` (which
the chain does not itself contain), it answers the chain's last
address. -/
theorem find_prev_spec {mem : List (HNode α)} {ta : Nat} :
    ∀ (l : List Nat) (a : Nat) (fuel : Nat),
      Path mem (some a) (a :: l) (some ta) →
      ta ∉ a :: l →
      l.length + 1 ≤ fuel →
      LinkedList.find_prev mem fuel a ta = (a :: l).getLast? := by
  intro l
  induction l with
  | nil =>
    intro a fuel hp hta hfuel
    obtain ⟨nd, hm, hpe⟩ := Path_cons_inv hp
    have hnext : nd.next = some ta := Path_end_of_nil hpe
    cases fuel with
    | zero => omega
    | succ f =>
      simp only [LinkedList.find_prev, hm, hnext]
      simp
  | cons b l ih =>
    intro a fuel hp hta hfuel
    obtain ⟨nd, hm, hpr⟩ := Path_cons_inv hp
    have hb : nd.next = some b := Path_head_some hpr
    rw [hb] at hpr
    have hbne : ¬ ((some b : Option Nat) = some ta) := by
      intro he
      have hbe : b = ta := (Option.some.injEq _ _).mp he
      refine hta ?_
      rw [← hbe]
      exact List.mem_cons_of_mem _ (List.mem_cons_self _ _)
    cases fuel with
    | zero => simp at hfuel
    | succ f =>
      have hstep : LinkedList.find_prev mem (f + 1) a ta
          = LinkedList.find_prev mem f b ta := by
        simp only [LinkedList.find_prev, hm, hb, if_neg hbne]
      rw [hstep,
        ih b f hpr (fun hmem => hta (List.mem_cons_of_mem _ hmem))
          (by simpa using hfuel),
        List.getLast?_cons_cons]

/-- `delete_at_tail` never crashes on a well-formed list, repairs the
tail reference to the next-to-last node, and preserves the invariant. -/
theorem delete_at_tail_spec (s : LinkedList α) (h : wf s) :
    ∃ v s', s.delete_at_tail = some (v, s') ∧ wf s' := by
  obtain ⟨mem, hd, tl, sz⟩ := s
  obtain ⟨addrs, hp, hsz, htl, hnd⟩ := h
  dsimp only at hp hsz htl hnd
  rw [LinkedList.delete_at_tail]
  by_cases he : (LinkedList.mk mem hd tl sz).is_empty
  · rw [if_pos he]
    exact ⟨none, _, rfl, addrs, hp, hsz, htl, hnd⟩
  · rw [if_neg he]
    obtain ⟨h0, hh0⟩ : ∃ h0, hd = some h0 := by
      cases hs : hd with
      | none => rw [LinkedList.is_empty, hs] at he; simp at he
      | some x => exact ⟨x, rfl⟩
    subst hh0
    obtain ⟨rest, rfl⟩ : ∃ rest, addrs = h0 :: rest := by
      cases hp with
      | cons hm hp2 => exact ⟨_, rfl⟩
    obtain ⟨l0, ta, hsplit⟩ : ∃ l0 ta, h0 :: rest = l0 ++ [ta] := by
      rcases List.eq_nil_or_concat (h0 :: rest) with hnil | ⟨l0, ta, heq⟩
      · simp at hnil
      · exact ⟨l0, ta, by simpa using heq⟩
    rw [hsplit] at hp hsz htl hnd
    have htl' : tl = some ta := by
      rw [htl, List.getLast?_concat]
    subst htl'
    dsimp only
    obtain ⟨tnd, htm, htnext, hpl0⟩ := Path_snoc_inv hp
    rw [htm]
    dsimp only
    by_cases hht : (some h0 : Option Nat) = some ta
    · rw [if_pos hht]
      have h0ta : h0 = ta := (Option.some.injEq _ _).mp hht
      subst h0ta
      have hl0 : l0 = [] := by
        cases l0 with
        | nil => rfl
        | cons b l0' =>
          have hb : (some h0 : Option Nat) = some b :=
            Path_head_some (by simpa using hp)
          have hbe : h0 = b := (Option.some.injEq _ _).mp hb
          subst hbe
          have hcons := List.nodup_cons.mp hnd
          exact absurd
            (List.mem_append_right l0' (List.mem_singleton_self h0))
            hcons.1
      subst hl0
      refine ⟨some tnd.data, _, rfl, [], Path.nil _, ?_, rfl, List.nodup_nil⟩
      simp only [List.nil_append, List.length_cons, List.length_nil] at hsz
      simp only [List.length_nil]
      omega
    · rw [if_neg hht]
      obtain ⟨p0, l1, rfl⟩ : ∃ p0 l1, l0 = p0 :: l1 := by
        cases l0 with
        | nil => exact absurd (Path_head_some (by simpa using hp)) hht
        | cons p0 l1 => exact ⟨p0, l1, rfl⟩
      have hph : (some h0 : Option Nat) = some p0 :=
        Path_head_some (by simpa using hp)
      have hph' : h0 = p0 := (Option.some.injEq _ _).mp hph
      subst hph'
      have hta_not : ta ∉ h0 :: l1 := by
        have hx := List.nodup_append.mp hnd
        intro hmem
        exact hx.2.2 hmem (List.mem_singleton_self ta)
      have hfuel : l1.length + 1 ≤ mem.length + 1 := by
        have hval := Path_valid hp
        have hlen := length_le_of_nodup_lt ((h0 :: l1) ++ [ta]) mem.length
          hnd hval
        simp only [List.length_append, List.length_cons, List.length_nil]
          at hlen
        omega
      rw [find_prev_spec l1 h0 (mem.length + 1) hpl0 hta_not hfuel]
      obtain ⟨prev, hprev⟩ : ∃ prev, (h0 :: l1).getLast? = some prev :=
        ⟨_, List.getLast?_eq_getLast _ (by simp)⟩
      rw [hprev]
      dsimp only
      obtain ⟨pnd, hpnd⟩ :=
        Path_node hpl0 prev (List.mem_of_getLast?_eq_some hprev)
      rw [hpnd]
      dsimp only
      obtain ⟨l01, prev', hsplit2⟩ : ∃ l01 prev',
          h0 :: l1 = l01 ++ [prev'] := by
        rcases List.eq_nil_or_concat (h0 :: l1) with hnil | ⟨l01, prev', heq⟩
        · simp at hnil
        · exact ⟨l01, prev', by simpa using heq⟩
      have hpp : prev = prev' := by
        rw [hsplit2, List.getLast?_concat] at hprev
        exact ((Option.some.injEq _ _).mp hprev).symm
      subst hpp
      rw [hsplit2] at hpl0 hnd
      obtain ⟨pnd', hpnd', hpnext', hpl01⟩ := Path_snoc_inv hpl0
      have hpe : pnd = pnd' := by
        rw [hpnd] at hpnd'
        exact (Option.some.injEq _ _).mp hpnd'
      subst hpe
      have hprev_lt : prev < mem.length :=
        (List.getElem?_eq_some_iff.mp hpnd).1
      have hprev_not : prev ∉ l01 := by
        have hx := List.nodup_append.mp (List.nodup_append.mp hnd).1
        intro hmem
        exact hx.2.2 hmem (List.mem_singleton_self prev)
      refine ⟨some tnd.data, _, rfl, l01 ++ [prev], ?_, ?_, ?_, ?_⟩
      · dsimp only
        refine Path_append (m := some prev) ?_ ?_
        · exact Path_set_of_not_mem hpl01 hprev_not
        · refine Path.cons (n := ⟨pnd.data, none⟩) ?_ (Path.nil _)
          rw [List.getElem?_set_self hprev_lt]
      · dsimp only
        have hlen2 : (h0 :: l1).length = (l01 ++ [prev]).length := by
          rw [hsplit2]
        simp only [List.length_append, List.length_cons, List.length_nil]
          at hsz hlen2 ⊢
        omega
      · dsimp only
        rw [List.getLast?_concat]
      · exact (List.nodup_append.mp hnd).1

/-- Loop invariant of `reverse`: processing the remaining chain `l`
while `r` is the already-reversed part. -/
theorem rev_loop_spec {α : Type} :
    ∀ (l : List Nat) (mem : List (HNode α)) (fuel : Nat)
      (prev cur : Option Nat) (r : List Nat),
      Path mem cur l none → Path mem prev r none → (l ++ r).Nodup →
      l.length ≤ fuel →
      ∃ mem' p, LinkedList.rev_loop mem fuel prev cur = some (mem', p) ∧
        Path mem' p (l.reverse ++ r) none ∧ mem'.length = mem.length := by
  intro l
  induction l with
  | nil =>
    intro mem fuel prev cur r hl hr hnd hf
    have hc : cur = none := Path_end_of_nil hl
    subst hc
    refine ⟨mem, prev, ?_, by simpa using hr, rfl⟩
    cases fuel with
    | zero => rfl
    | succ f => rfl
  | cons c l ih =>
    intro mem fuel prev cur r hl hr hnd hf
    have hc : cur = some c := Path_head_some hl
    subst hc
    obtain ⟨nd, hm, hp⟩ := Path_cons_inv hl
    cases fuel with
    | zero => simp at hf
    | succ f =>
      have hstep : LinkedList.rev_loop mem (f + 1) prev (some c)
          = LinkedList.rev_loop (mem.set c ⟨nd.data, prev⟩) f (some c)
              nd.next := by
        simp only [LinkedList.rev_loop, hm]
      have hnd1 : c ∉ l ++ r ∧ (l ++ r).Nodup :=
        List.nodup_cons.mp (by simpa using hnd)
      have hpath_l : Path (mem.set c ⟨nd.data, prev⟩) nd.next l none :=
        Path_set_of_not_mem hp
          (fun hx => hnd1.1 (List.mem_append_left _ hx))
      have hpath_r : Path (mem.set c ⟨nd.data, prev⟩) (some c) (c :: r)
          none := by
        refine Path.cons (n := ⟨nd.data, prev⟩) ?_
          (Path_set_of_not_mem hr
            (fun hx => hnd1.1 (List.mem_append_right _ hx)))
        rw [List.getElem?_set_self (List.getElem?_eq_some_iff.mp hm).1]
      have hnd2 : (l ++ c :: r).Nodup :=
        List.nodup_middle.mpr (by simpa using hnd)
      obtain ⟨mem', p, heq, hpath, hlen⟩ :=
        ih (mem.set c ⟨nd.data, prev⟩) f (some c) nd.next (c :: r)
          hpath_l hpath_r hnd2 (by simpa using hf)
      refine ⟨mem', p, ?_, ?_, ?_⟩
      · rw [hstep]
        exact heq
      · have hre : (c :: l).reverse ++ r = l.reverse ++ c :: r := by
          simp
        rw [hre]
        exact hpath
      · rw [hlen, List.length_set]

/-- `reverse` never crashes on a well-formed list and preserves the
invariant, swapping which end each of `head` and `tail` references. -/
theorem reverse_spec (s : LinkedList α) (h : wf s) :
    ∃ s', s.reverse = some s' ∧ wf s' := by
  obtain ⟨mem, hd, tl, sz⟩ := s
  obtain ⟨addrs, hp, hsz, htl, hnd⟩ := h
  dsimp only at hp hsz htl hnd
  rw [LinkedList.reverse]
  dsimp only
  have hfuel : addrs.length ≤ mem.length + 1 := by
    have := length_le_of_nodup_lt addrs mem.length hnd (Path_valid hp)
    omega
  obtain ⟨mem', p, heq, hpath, hlen⟩ :=
    rev_loop_spec addrs mem (mem.length + 1) none hd []
      hp (Path.nil _) (by simpa using hnd) hfuel
  rw [heq]
  refine ⟨_, rfl, addrs.reverse, ?_, ?_, ?_, ?_⟩
  · simpa using hpath
  · simpa using hsz
  · dsimp only
    rw [List.getLast?_reverse]
    cases addrs with
    | nil => simpa using Path_end_of_nil hp
    | cons a rest => rw [Path_head_some hp]; rfl
  · exact List.nodup_reverse.mpr hnd

/-- `clear` trivially re-establishes the invariant. -/
theorem clear_wf (s : LinkedList α) : wf s.clear :=
  ⟨[], Path.nil _, rfl, rfl, List.nodup_nil⟩

namespace LinkedList

/-- The position-counting walk of `insert_task_by_priority`
(`while current and current.data['priority'] >= priority`), with fuel
against cyclic garbage. -/
def prio_walk (mem : List (HNode Task)) :
    Nat → Option Nat → Int → Nat → Option Nat
  | _, none, _, pos => some pos
  | 0, some _, _, _ => none
  | fuel + 1, some c, p, pos =>
    match mem[c]? with
    | none => none
    | some nd =>
      if p ≤ nd.data.priority then prio_walk mem fuel nd.next p (pos + 1)
      else some pos

/-- `TaskLinkedList.insert_task_by_priority` at the pointer level:
empty list gets the head insert; a strictly higher priority than the
head's goes at the head; otherwise count the walk's position and
splice with `insert_at_position`. -/
def insert_task_by_priority (s : LinkedList Task) (t : Task) :
    Option (LinkedList Task) :=
  if s.is_empty then some (s.insert_at_head t)
  else
    match s.head with
    | none => none
    | some h =>
      match s.mem[h]? with
      | none => none
      | some hnd =>
        if t.priority > hnd.data.priority then some (s.insert_at_head t)
        else
          match prio_walk s.mem (s.mem.length + 1) (some h) t.priority 0 with
          | none => none
          | some pos => (s.insert_at_position pos t).map fun q => q.2

/-- The walk of `insert_task_by_due_date`
(`while current and current.data['due_date'] <= due_date`). -/
def due_walk (mem : List (HNode Task)) :
    Nat → Option Nat → String → Nat → Option Nat
  | _, none, _, pos => some pos
  | 0, some _, _, _ => none
  | fuel + 1, some c, dd, pos =>
    match mem[c]? with
    | none => none
    | some nd =>
      if nd.data.due_date ≤ dd then due_walk mem fuel nd.next dd (pos + 1)
      else some pos

/-- `TaskLinkedList.insert_task_by_due_date` at the pointer level. -/
def insert_task_by_due_date (s : LinkedList Task) (t : Task) :
    Option (LinkedList Task) :=
  if s.is_empty then some (s.insert_at_head t)
  else
    match s.head with
    | none => none
    | some h =>
      match s.mem[h]? with
      | none => none
      | some hnd =>
        if t.due_date < hnd.data.due_date then some (s.insert_at_head t)
        else
          match due_walk s.mem (s.mem.length + 1) (some h) t.due_date 0 with
          | none => none
          | some pos => (s.insert_at_position pos t).map fun q => q.2

/-- The `while current.next:` walk of `delete_task_by_id`: inspect
`current.next`; if it carries the id, report the pair (predecessor,
victim) and the victim's node; when the chain ends report a miss. -/
def del_walk (mem : List (HNode Task)) :
    Nat → Nat → Int → Option (Option (Nat × Nat × HNode Task))
  | 0, _, _ => none
  | fuel + 1, cur, tid =>
    match mem[cur]? with
    | none => none
    | some cnd =>
      match cnd.next with
      | none => some none
      | some nx =>
        match mem[nx]? with
        | none => none
        | some xnd =>
          if xnd.data.id = tid then some (some (cur, nx, xnd))
          else del_walk mem fuel nx tid

/-- `TaskLinkedList.delete_task_by_id`: head hit delegates to
`delete_at_head`; otherwise the walk finds the victim behind its
predecessor and splices it out, retargeting `tail` when the victim was
the tail node (the `node_to_delete == self.tail` identity test). -/
def delete_task_by_id (s : LinkedList Task) (tid : Int) :
    Option (Option Task × LinkedList Task) :=
  if s.is_empty then some (none, s)
  else
    match s.head with
    | none => none
    | some h =>
      match s.mem[h]? with
      | none => none
      | some hnd =>
        if hnd.data.id = tid then s.delete_at_head
        else
          match del_walk s.mem (s.mem.length + 1) h tid with
          | none => none
          | some none => some (none, s)
          | some (some (cur, nx, xnd)) =>
            match s.mem[cur]? with
            | none => none
            | some cnd =>
              some (some xnd.data,
                ⟨s.mem.set cur ⟨cnd.data, xnd.next⟩, s.head,
                 if some nx = s.tail then some cur else s.tail,
                 s.size - 1⟩)

end LinkedList

theorem prio_walk_spec {mem : List (HNode Task)} {p : Int} :
    ∀ (l : List Nat) (cur : Option Nat) (fuel : Nat) (pos : Nat),
      Path mem cur l none → l.length ≤ fuel →
      ∃ res, LinkedList.prio_walk mem fuel cur p pos = some res ∧
        res ≤ pos + l.length := by
  intro l
  induction l with
  | nil =>
    intro cur fuel pos hp hf
    have hc : cur = none := Path_end_of_nil hp
    subst hc
    refine ⟨pos, ?_, by omega⟩
    cases fuel with
    | zero => rfl
    | succ f => rfl
  | cons c l ih =>
    intro cur fuel pos hp hf
    have hc : cur = some c := Path_head_some hp
    subst hc
    obtain ⟨nd, hm, hpr⟩ := Path_cons_inv hp
    cases fuel with
    | zero => simp at hf
    | succ f =>
      by_cases hple : p ≤ nd.data.priority
      · have hstep : LinkedList.prio_walk mem (f + 1) (some c) p pos
            = LinkedList.prio_walk mem f nd.next p (pos + 1) := by
          simp only [LinkedList.prio_walk, hm, if_pos hple]
        obtain ⟨res, hres, hle⟩ :=
          ih nd.next f (pos + 1) hpr (by simpa using hf)
        refine ⟨res, by rw [hstep]; exact hres, ?_⟩
        simp only [List.length_cons]
        omega
      · refine ⟨pos, ?_, by omega⟩
        simp only [LinkedList.prio_walk, hm, if_neg hple]

theorem due_walk_spec {mem : List (HNode Task)} {dd : String} :
    ∀ (l : List Nat) (cur : Option Nat) (fuel : Nat) (pos : Nat),
      Path mem cur l none → l.length ≤ fuel →
      ∃ res, LinkedList.due_walk mem fuel cur dd pos = some res ∧
        res ≤ pos + l.length := by
  intro l
  induction l with
  | nil =>
    intro cur fuel pos hp hf
    have hc : cur = none := Path_end_of_nil hp
    subst hc
    refine ⟨pos, ?_, by omega⟩
    cases fuel with
    | zero => rfl
    | succ f => rfl
  | cons c l ih =>
    intro cur fuel pos hp hf
    have hc : cur = some c := Path_head_some hp
    subst hc
    obtain ⟨nd, hm, hpr⟩ := Path_cons_inv hp
    cases fuel with
    | zero => simp at hf
    | succ f =>
      by_cases hple : nd.data.due_date ≤ dd
      · have hstep : LinkedList.due_walk mem (f + 1) (some c) dd pos
            = LinkedList.due_walk mem f nd.next dd (pos + 1) := by
          simp only [LinkedList.due_walk, hm, if_pos hple]
        obtain ⟨res, hres, hle⟩ :=
          ih nd.next f (pos + 1) hpr (by simpa using hf)
        refine ⟨res, by rw [hstep]; exact hres, ?_⟩
        simp only [List.length_cons]
        omega
      · refine ⟨pos, ?_, by omega⟩
        simp only [LinkedList.due_walk, hm, if_neg hple]

theorem del_walk_spec {mem : List (HNode Task)} {tid : Int} :
    ∀ (l : List Nat) (a : Nat) (fuel : Nat),
      Path mem (some a) (a :: l) none →
      l.length + 1 ≤ fuel →
      LinkedList.del_walk mem fuel a tid = some none ∨
      ∃ l1 cur nx xnd l2,
        LinkedList.del_walk mem fuel a tid = some (some (cur, nx, xnd)) ∧
        a :: l = l1 ++ cur :: nx :: l2 ∧ mem[nx]? = some xnd := by
  intro l
  induction l with
  | nil =>
    intro a fuel hp hf
    obtain ⟨nd, hm, hpe⟩ := Path_cons_inv hp
    have hnext : nd.next = none := Path_end_of_nil hpe
    cases fuel with
    | zero => omega
    | succ f =>
      left
      simp only [LinkedList.del_walk, hm, hnext]
  | cons b l ih =>
    intro a fuel hp hf
    obtain ⟨nd, hm, hpr⟩ := Path_cons_inv hp
    have hb : nd.next = some b := Path_head_some hpr
    rw [hb] at hpr
    obtain ⟨bnd, hbm, hbp⟩ := Path_cons_inv hpr
    cases fuel with
    | zero => simp at hf
    | succ f =>
      by_cases hid : bnd.data.id = tid
      · right
        refine ⟨[], a, b, bnd, l, ?_, rfl, hbm⟩
        simp only [LinkedList.del_walk, hm, hb, hbm, if_pos hid]
      · have hstep : LinkedList.del_walk mem (f + 1) a tid
            = LinkedList.del_walk mem f b tid := by
          simp only [LinkedList.del_walk, hm, hb, hbm, if_neg hid]
        rcases ih b f hpr (by simpa using hf) with hnone |
          ⟨l1, cur, nx, xnd, l2, heq, hdec, hxm⟩
        · left
          rw [hstep]
          exact hnone
        · right
          refine ⟨a :: l1, cur, nx, xnd, l2, ?_, ?_, hxm⟩
          · rw [hstep]
            exact heq
          · rw [List.cons_append, hdec]

/-- The pointer-level priority insert never crashes on a well-formed
list and preserves the invariant. -/
theorem insert_task_by_priority_spec (s : LinkedList Task) (t : Task)
    (h : wf s) :
    ∃ s', s.insert_task_by_priority t = some s' ∧ wf s' := by
  obtain ⟨mem, hd, tl, sz⟩ := s
  obtain ⟨addrs, hp, hsz, htl, hnd⟩ := h
  dsimp only at hp hsz htl hnd
  rw [LinkedList.insert_task_by_priority]
  by_cases he : (LinkedList.mk mem hd tl sz).is_empty
  · rw [if_pos he]
    exact ⟨_, rfl, insert_at_head_wf _ t ⟨addrs, hp, hsz, htl, hnd⟩⟩
  · rw [if_neg he]
    obtain ⟨h0, hh0⟩ : ∃ h0, hd = some h0 := by
      cases hs : hd with
      | none => rw [LinkedList.is_empty, hs] at he; simp at he
      | some x => exact ⟨x, rfl⟩
    subst hh0
    obtain ⟨rest, rfl⟩ : ∃ rest, addrs = h0 :: rest := by
      cases hp with
      | cons hm hp2 => exact ⟨_, rfl⟩
    obtain ⟨n0, hm0, hpr⟩ := Path_cons_inv hp
    dsimp only
    rw [hm0]
    dsimp only
    by_cases hgt : t.priority > n0.data.priority
    · rw [if_pos hgt]
      exact ⟨_, rfl, insert_at_head_wf _ t ⟨h0 :: rest, hp, hsz, htl, hnd⟩⟩
    · rw [if_neg hgt]
      have hfuel : (h0 :: rest).length ≤ mem.length + 1 := by
        have := length_le_of_nodup_lt (h0 :: rest) mem.length hnd
          (Path_valid hp)
        omega
      obtain ⟨pos, hpw, hple⟩ :=
        prio_walk_spec (h0 :: rest) (some h0) (mem.length + 1) 0 hp hfuel
      rw [hpw]
      dsimp only
      obtain ⟨b, s', hins, hwf⟩ :=
        insert_at_position_spec ⟨mem, some h0, tl, sz⟩ pos t
          ⟨h0 :: rest, hp, hsz, htl, hnd⟩
      rw [hins]
      exact ⟨s', rfl, hwf⟩

/-- The pointer-level due-date insert never crashes on a well-formed
list and preserves the invariant. -/
theorem insert_task_by_due_date_spec (s : LinkedList Task) (t : Task)
    (h : wf s) :
    ∃ s', s.insert_task_by_due_date t = some s' ∧ wf s' := by
  obtain ⟨mem, hd, tl, sz⟩ := s
  obtain ⟨addrs, hp, hsz, htl, hnd⟩ := h
  dsimp only at hp hsz htl hnd
  rw [LinkedList.insert_task_by_due_date]
  by_cases he : (LinkedList.mk mem hd tl sz).is_empty
  · rw [if_pos he]
    exact ⟨_, rfl, insert_at_head_wf _ t ⟨addrs, hp, hsz, htl, hnd⟩⟩
  · rw [if_neg he]
    obtain ⟨h0, hh0⟩ : ∃ h0, hd = some h0 := by
      cases hs : hd with
      | none => rw [LinkedList.is_empty, hs] at he; simp at he
      | some x => exact ⟨x, rfl⟩
    subst hh0
    obtain ⟨rest, rfl⟩ : ∃ rest, addrs = h0 :: rest := by
      cases hp with
      | cons hm hp2 => exact ⟨_, rfl⟩
    obtain ⟨n0, hm0, hpr⟩ := Path_cons_inv hp
    dsimp only
    rw [hm0]
    dsimp only
    by_cases hlt : t.due_date < n0.data.due_date
    · rw [if_pos hlt]
      exact ⟨_, rfl, insert_at_head_wf _ t ⟨h0 :: rest, hp, hsz, htl, hnd⟩⟩
    · rw [if_neg hlt]
      have hfuel : (h0 :: rest).length ≤ mem.length + 1 := by
        have := length_le_of_nodup_lt (h0 :: rest) mem.length hnd
          (Path_valid hp)
        omega
      obtain ⟨pos, hpw, hple⟩ :=
        due_walk_spec (h0 :: rest) (some h0) (mem.length + 1) 0 hp hfuel
      rw [hpw]
      dsimp only
      obtain ⟨b, s', hins, hwf⟩ :=
        insert_at_position_spec ⟨mem, some h0, tl, sz⟩ pos t
          ⟨h0 :: rest, hp, hsz, htl, hnd⟩
      rw [hins]
      exact ⟨s', rfl, hwf⟩

/-- `delete_task_by_id` never crashes on a well-formed list, repairs
the tail reference when the victim was the last node, and preserves
the invariant. -/
theorem delete_task_by_id_spec (s : LinkedList Task) (tid : Int)
    (h : wf s) :
    ∃ v s', s.delete_task_by_id tid = some (v, s') ∧ wf s' := by
  obtain ⟨mem, hd, tl, sz⟩ := s
  obtain ⟨addrs, hp, hsz, htl, hnd⟩ := h
  dsimp only at hp hsz htl hnd
  rw [LinkedList.delete_task_by_id]
  by_cases he : (LinkedList.mk mem hd tl sz).is_empty
  · rw [if_pos he]
    exact ⟨none, _, rfl, addrs, hp, hsz, htl, hnd⟩
  · rw [if_neg he]
    obtain ⟨h0, hh0⟩ : ∃ h0, hd = some h0 := by
      cases hs : hd with
      | none => rw [LinkedList.is_empty, hs] at he; simp at he
      | some x => exact ⟨x, rfl⟩
    subst hh0
    obtain ⟨rest, rfl⟩ : ∃ rest, addrs = h0 :: rest := by
      cases hp with
      | cons hm hp2 => exact ⟨_, rfl⟩
    obtain ⟨n0, hm0, hpr⟩ := Path_cons_inv hp
    dsimp only
    rw [hm0]
    dsimp only
    by_cases hidh : n0.data.id = tid
    · rw [if_pos hidh]
      exact delete_at_head_spec ⟨mem, some h0, tl, sz⟩
        ⟨h0 :: rest, hp, hsz, htl, hnd⟩
    · rw [if_neg hidh]
      have hfuel : rest.length + 1 ≤ mem.length + 1 := by
        have := length_le_of_nodup_lt (h0 :: rest) mem.length hnd
          (Path_valid hp)
        simp only [List.length_cons] at this
        omega
      rcases del_walk_spec rest h0 (mem.length + 1) hp hfuel with hnone |
        ⟨l1, cur, nx, xnd, l2, heq, hdec, hxm⟩
      · rw [hnone]
        exact ⟨none, _, rfl, h0 :: rest, hp, hsz, htl, hnd⟩
      · rw [heq]
        dsimp only
        have hcur_mem : cur ∈ h0 :: rest := by
          rw [hdec]
          exact List.mem_append_right _ (List.mem_cons_self _ _)
        obtain ⟨cnd, hcnd⟩ := Path_node hp cur hcur_mem
        rw [hcnd]
        dsimp only
        rw [hdec] at hp hsz htl hnd
        obtain ⟨m1, hP1, hP2⟩ := Path_split hp l1.length
        rw [List.take_left] at hP1
        rw [List.drop_left] at hP2
        have hm1 : m1 = some cur := Path_head_some hP2
        subst hm1
        obtain ⟨cnd', hcnd', hP3⟩ := Path_cons_inv hP2
        have hce : cnd = cnd' := by
          rw [hcnd] at hcnd'
          exact (Option.some.injEq _ _).mp hcnd'
        subst hce
        have hcnx : cnd.next = some nx := Path_head_some hP3
        rw [hcnx] at hP3
        obtain ⟨xnd', hxm', hP4⟩ := Path_cons_inv hP3
        have hxe : xnd = xnd' := by
          rw [hxm] at hxm'
          exact (Option.some.injEq _ _).mp hxm'
        subst hxe
        -- duplicate-freeness facts about the decomposed spine
        have hnd_parts := List.nodup_append.mp hnd
        have hcur_not_l1 : cur ∉ l1 := by
          intro hmem
          exact hnd_parts.2.2 hmem (List.mem_cons_self _ _)
        have hnd_tail := hnd_parts.2.1
        have hcur_not_l2 : cur ∉ l2 := by
          have := (List.nodup_cons.mp hnd_tail).1
          intro hmem
          exact this (List.mem_cons_of_mem _ hmem)
        have hnx_not_l2 : nx ∉ l2 :=
          (List.nodup_cons.mp (List.nodup_cons.mp hnd_tail).2).1
        by_cases htc : (some nx : Option Nat) = tl
        · rw [if_pos htc]
          have hl2 : l2 = [] := by
            cases hll : l2 with
            | nil => rfl
            | cons g l2' =>
              exfalso
              have hlast : tl = (l1 ++ cur :: nx :: l2).getLast? := htl
              rw [List.getLast?_append_of_ne_nil _ (by simp)] at hlast
              have h1 : (cur :: nx :: l2).getLast? = (nx :: l2).getLast? :=
                List.getLast?_cons_cons
              have h2 : (nx :: l2).getLast? = l2.getLast? := by
                rw [hll]
                exact List.getLast?_cons_cons
              rw [h1, h2] at hlast
              rw [← htc] at hlast
              have hmem := List.mem_of_getLast?_eq_some hlast.symm
              exact hnx_not_l2 hmem
          subst hl2
          have hxnone : xnd.next = none := Path_end_of_nil hP4
          refine ⟨some xnd.data, _, rfl, l1 ++ [cur], ?_, ?_, ?_, ?_⟩
          · dsimp only
            refine Path_append (m := some cur)
              (Path_set_of_not_mem hP1 hcur_not_l1) ?_
            refine Path.cons (n := ⟨cnd.data, xnd.next⟩) ?_ ?_
            · rw [List.getElem?_set_self (List.getElem?_eq_some_iff.mp hcnd).1]
            · rw [hxnone]
              exact Path.nil _
          · dsimp only
            simp only [List.length_append, List.length_cons, List.length_nil]
              at hsz ⊢
            omega
          · dsimp only
            rw [List.getLast?_concat]
          · rw [List.nodup_append]
            refine ⟨hnd_parts.1, by simp, ?_⟩
            intro x hx hx2
            rw [List.mem_singleton] at hx2
            subst hx2
            exact hcur_not_l1 hx
        · rw [if_neg htc]
          have hl2ne : l2 ≠ [] := by
            intro hl2
            subst hl2
            refine htc ?_
            rw [htl, List.getLast?_append_of_ne_nil _ (by simp)]
            rfl
          refine ⟨some xnd.data, _, rfl, l1 ++ cur :: l2, ?_, ?_, ?_, ?_⟩
          · dsimp only
            refine Path_append (m := some cur)
              (Path_set_of_not_mem hP1 hcur_not_l1) ?_
            refine Path.cons (n := ⟨cnd.data, xnd.next⟩) ?_ ?_
            · rw [List.getElem?_set_self (List.getElem?_eq_some_iff.mp hcnd).1]
            · exact Path_set_of_not_mem hP4 hcur_not_l2
          · dsimp only
            simp only [List.length_append, List.length_cons] at hsz ⊢
            omega
          · dsimp only
            obtain ⟨g, l2', rfl⟩ : ∃ g l2', l2 = g :: l2' := by
              cases l2 with
              | nil => exact absurd rfl hl2ne
              | cons g l2' => exact ⟨g, l2', rfl⟩
            have e1 : (l1 ++ cur :: nx :: g :: l2').getLast?
                = (g :: l2').getLast? := by
              rw [List.getLast?_append_of_ne_nil _ (by simp),
                List.getLast?_cons_cons, List.getLast?_cons_cons]
            have e2 : (l1 ++ cur :: g :: l2').getLast?
                = (g :: l2').getLast? := by
              rw [List.getLast?_append_of_ne_nil _ (by simp),
                List.getLast?_cons_cons]
            rw [htl, e1, e2]
          · rw [List.nodup_append]
            refine ⟨hnd_parts.1, ?_, ?_⟩
            · refine List.nodup_cons.mpr ⟨hcur_not_l2, ?_⟩
              exact (List.nodup_cons.mp (List.nodup_cons.mp hnd_tail).2).2
            · intro x hx hx2
              rcases List.mem_cons.mp hx2 with rfl | hx2
              · exact hnd_parts.2.2 hx (List.mem_cons_self _ _)
              · exact hnd_parts.2.2 hx
                  (List.mem_cons_of_mem _ (List.mem_cons_of_mem _ hx2))

/-- One Ordered Index operation, as the claim lists them: the two
ordered inserts, positional insert, head/tail/by-id deletes, reverse
and clear. -/
inductive Op where
  | ins_priority (t : Task)
  | ins_due_date (t : Task)
  | ins_position (position : Nat) (t : Task)
  | del_head
  | del_tail
  | del_id (tid : Int)
  | rev
  | clr
  deriving DecidableEq, Repr

/-- The successor state of one operation (`none` models a crash; under
the invariant none occurs). -/
def applyOp (s : LinkedList Task) : Op → Option (LinkedList Task)
  | Op.ins_priority t => s.insert_task_by_priority t
  | Op.ins_due_date t => s.insert_task_by_due_date t
  | Op.ins_position p t => (s.insert_at_position p t).map fun q => q.2
  | Op.del_head => s.delete_at_head.map fun q => q.2
  | Op.del_tail => s.delete_at_tail.map fun q => q.2
  | Op.del_id tid => (s.delete_task_by_id tid).map fun q => q.2
  | Op.rev => s.reverse
  | Op.clr => some s.clear

/-- The invariant as the claim phrases it, derived from the spine:
`tail` absent iff `head` absent, and `tail` reached from `head` by
following `next` exactly `size - 1` times. -/
theorem wf_claim_shape (s : LinkedList α) (h : wf s) :
    (s.tail = none ↔ s.head = none) ∧
    ∀ hd0, s.head = some hd0 →
      LinkedList.walkN s.mem (s.size - 1) hd0 = s.tail := by
  obtain ⟨addrs, hp, hsz, htl, hnd⟩ := h
  constructor
  · constructor
    · intro ht
      rw [ht] at htl
      have ha : addrs = [] := List.getLast?_eq_none_iff.mp htl.symm
      subst ha
      exact Path_end_of_nil hp
    · intro hh
      rw [hh] at hp
      obtain ⟨rfl, -⟩ := Path_nil_inv hp
      simpa using htl
  · intro hd0 hhd
    rw [hhd] at hp
    obtain ⟨rest, rfl⟩ : ∃ rest, addrs = hd0 :: rest := by
      cases hp with
      | cons hm hp2 => exact ⟨_, rfl⟩
    have hlen : s.size - 1 = rest.length := by
      rw [hsz]
      simp
    rw [hlen, walkN_tail_of_path hp, htl]

/-- C9: every Ordered Index operation — the two ordered inserts,
positional insert, the head/tail/by-id deletes, reverse and clear —
runs without crashing on a well-formed list and preserves the
structural invariant: the stored count equals the number of nodes
reachable from `head`, `tail` is reached from `head` by following
`next` exactly `count - 1` times and is absent iff `head` is absent;
in particular `delete_task_by_id` repairs the tail reference when the
removed node was the last one. -/
theorem C9_index_ops_preserve_invariant (s : LinkedList Task) (op : Op)
    (h : wf s) :
    (applyOp s op).isSome = true ∧
    ∀ s', applyOp s op = some s' →
      wf s' ∧ (s'.tail = none ↔ s'.head = none) ∧
      ∀ hd0, s'.head = some hd0 →
        LinkedList.walkN s'.mem (s'.size - 1) hd0 = s'.tail := by
  have hout : ∃ s', applyOp s op = some s' ∧ wf s' := by
    cases op with
    | ins_priority t => exact insert_task_by_priority_spec s t h
    | ins_due_date t => exact insert_task_by_due_date_spec s t h
    | ins_position p t =>
      obtain ⟨b, s', heq, hwf⟩ := insert_at_position_spec s p t h
      refine ⟨s', ?_, hwf⟩
      show (s.insert_at_position p t).map (fun q => q.2) = some s'
      rw [heq]
      rfl
    | del_head =>
      obtain ⟨v, s', heq, hwf⟩ := delete_at_head_spec s h
      refine ⟨s', ?_, hwf⟩
      show s.delete_at_head.map (fun q => q.2) = some s'
      rw [heq]
      rfl
    | del_tail =>
      obtain ⟨v, s', heq, hwf⟩ := delete_at_tail_spec s h
      refine ⟨s', ?_, hwf⟩
      show s.delete_at_tail.map (fun q => q.2) = some s'
      rw [heq]
      rfl
    | del_id tid =>
      obtain ⟨v, s', heq, hwf⟩ := delete_task_by_id_spec s tid h
      refine ⟨s', ?_, hwf⟩
      show (s.delete_task_by_id tid).map (fun q => q.2) = some s'
      rw [heq]
      rfl
    | rev =>
      obtain ⟨s', heq, hwf⟩ := reverse_spec s h
      exact ⟨s', heq, hwf⟩
    | clr => exact ⟨s.clear, rfl, clear_wf s⟩
  obtain ⟨s', heq, hwf⟩ := hout
  rw [heq]
  refine ⟨rfl, ?_⟩
  intro s'' hs''
  have he : s' = s'' := Option.some.inj hs''
  subst he
  exact ⟨hwf, (wf_claim_shape s' hwf).1, (wf_claim_shape s' hwf).2⟩

theorem C9_index_ops_preserve_invariant_witness :
    (applyOp (LinkedList.empty Task) (Op.ins_priority taskDec31)).isSome
        = true ∧
    ∀ s', applyOp (LinkedList.empty Task) (Op.ins_priority taskDec31)
        = some s' →
      wf s' ∧ (s'.tail = none ↔ s'.head = none) ∧
      ∀ hd0, s'.head = some hd0 →
        LinkedList.walkN s'.mem (s'.size - 1) hd0 = s'.tail :=
  C9_index_ops_preserve_invariant (LinkedList.empty Task)
    (Op.ins_priority taskDec31) ⟨[], Path.nil _, rfl, rfl, List.nodup_nil⟩

end TaskMgr